import Mathlib

/-!
Verification development for the csvpg repository (Go).

The embedding below is a shallow translation of `csvpg.go` (the type-candidate
elimination engine, the per-type detection predicates, the resolver and the
DDL emitter) together with executable models of the external library
functions the source calls (`strconv.ParseInt`, `strconv.ParseFloat`,
`net.ParseIP`, `net.ParseCIDR`, `dateparse.ParseAny`, and the literal
regular expressions, which are rendered as explicit character scans).

Go machine integers are modelled as `Int` with explicit range checks where
the source checks ranges; Go byte strings are modelled as `String` with
`String.utf8ByteSize` standing for Go's `len` on strings; Go bitmask sets
(`int` with flags `1 << i`) are modelled as `Nat` with `Nat.testBit`.
-/

namespace Csvpg

/-- ASCII decimal digit test, as used by Go's numeric parsers. -/
def isDigitCh (c : Char) : Bool := decide ('0' ≤ c) && decide (c ≤ '9')

/-- ASCII hexadecimal digit test. -/
def isHexCh (c : Char) : Bool :=
  isDigitCh c || (decide ('a' ≤ c) && decide (c ≤ 'f')) || (decide ('A' ≤ c) && decide (c ≤ 'F'))

/-- ASCII letter test, the character class `[A-Za-z]`. -/
def isAlphaCh (c : Char) : Bool :=
  (decide ('a' ≤ c) && decide (c ≤ 'z')) || (decide ('A' ≤ c) && decide (c ≤ 'Z'))

/-- ASCII alphanumeric test, the character class `[a-zA-Z0-9]`. -/
def isAlnumCh (c : Char) : Bool := isAlphaCh c || isDigitCh c

/-- ASCII lower-case letter test, the character class `[a-z]`. -/
def isLowerCh (c : Char) : Bool := decide ('a' ≤ c) && decide (c ≤ 'z')

/-- ASCII case folding of one character, used to model the `(?i:...)`
regular expressions of the source and `strings.ToLower` (the inputs the
claims exercise are ASCII; exotic Unicode foldings are not modelled). -/
def lowerCh (c : Char) : Char :=
  if decide ('A' ≤ c) && decide (c ≤ 'Z') then Char.ofNat (c.toNat + 32) else c

/-- Decimal value of a digit run. -/
def digitsVal (l : List Char) : Nat := l.foldl (fun a c => a * 10 + (c.toNat - 48)) 0

/-- Model of Go `strconv.ParseInt(s, 10, bits)` success, with the value range
given by `lo`/`hi`: an optional sign, a nonempty run of decimal digits, and
the signed value within range.  (Underscore digit separators, which base-10
`ParseInt` rejects anyway, do not arise.) -/
def goParseIntOk (s : String) (lo hi : Int) : Bool :=
  match s.data with
  | [] => false
  | c :: cs =>
    let neg : Bool := c == '-'
    let ds : List Char := if c == '+' || c == '-' then cs else c :: cs
    ds ≠ [] && ds.all isDigitCh &&
      (let v : Int := if neg then -(digitsVal ds : Int) else (digitsVal ds : Int)
       decide (lo ≤ v) && decide (v ≤ hi))

/-- Model of Go `strconv.ParseFloat` success for the decimal forms: optional
sign, then either one of the special words `inf`, `infinity`, `nan`
(ASCII-case-insensitively), or a mantissa (digits with an optional dot,
at least one digit overall) with an optional `e`/`E` exponent.  Hexadecimal
float literals, underscore separators and the out-of-range error (the only
point where the 32-bit and 64-bit calls differ) are not modelled; no claim
depends on them, and `real`/`double` therefore share this acceptance test. -/
def goParseFloatOk (s : String) : Bool :=
  match s.data with
  | [] => false
  | c :: cs =>
    let body : List Char := if c == '+' || c == '-' then cs else c :: cs
    let low := body.map lowerCh
    if low == "inf".data || low == "infinity".data || low == "nan".data then true
    else
      let p1 := body.span isDigitCh
      let p2 : List Char × List Char :=
        match p1.2 with
        | '.' :: rest => rest.span isDigitCh
        | _ => ([], p1.2)
      if p1.1 == [] && p2.1 == [] then false
      else
        match p2.2 with
        | [] => true
        | e :: rest =>
          if e == 'e' || e == 'E' then
            let exp : List Char :=
              match rest with
              | c2 :: cs2 => if c2 == '+' || c2 == '-' then cs2 else c2 :: cs2
              | [] => []
            exp ≠ [] && exp.all isDigitCh
          else false

/-- Character scan for the `numeric` pattern of the source,
the anchored regular expression sign? digits ( dot digits )? ( e sign? digits )?. -/
def numericMatch (s : String) : Bool :=
  match s.data with
  | [] => false
  | c :: cs =>
    let body : List Char := if c == '+' || c == '-' then cs else c :: cs
    let p1 := body.span isDigitCh
    if p1.1 == [] then false
    else
      let p2 : Option (List Char) :=
        match p1.2 with
        | '.' :: rest =>
          let q := rest.span isDigitCh
          if q.1 == [] then none else some q.2
        | other => some other
      match p2 with
      | none => false
      | some r2 =>
        match r2 with
        | [] => true
        | e :: rest =>
          if e == 'e' || e == 'E' then
            let ex : List Char :=
              match rest with
              | c2 :: cs2 => if c2 == '+' || c2 == '-' then cs2 else c2 :: cs2
              | [] => []
            ex ≠ [] && ex.all isDigitCh
          else false

/-- Token list of the `boolean` pattern of the source. -/
def booleanTokens : List String :=
  ["t", "tr", "tru", "true", "y", "ye", "yes", "on", "1",
   "f", "fa", "fal", "fals", "false", "n", "no", "of", "off", "0"]

/-- Character scan for the case-insensitive `boolean` pattern of the source. -/
def booleanMatch (s : String) : Bool :=
  booleanTokens.any (fun t => s.data.map lowerCh == t.data)

/-- Run of hexadecimal digit pairs, for the `bytea` pattern. -/
def hexPairs : List Char → Bool
  | [] => true
  | a :: b :: r => isHexCh a && isHexCh b && hexPairs r
  | _ :: [] => false

/-- Character scan for the `bytea` pattern of the source: a literal
backslash, an `x`, then zero or more case-insensitive hex pairs. -/
def byteaMatch (s : String) : Bool :=
  match s.data with
  | '\\' :: 'x' :: rest => hexPairs rest
  | _ => false

/-- Consume exactly `n` hexadecimal digits. -/
def hexRun : Nat → List Char → Option (List Char)
  | 0, l => some l
  | _ + 1, [] => none
  | n + 1, c :: r => if isHexCh c then hexRun n r else none

/-- Consume one expected character. -/
def expectCh (c : Char) : List Char → Option (List Char)
  | [] => none
  | x :: r => if x == c then some r else none

/-- Core of the `uuid` pattern: hex runs 8-4-4-4-12 joined by dashes. -/
def uuidCore (l : List Char) : Option (List Char) :=
  (hexRun 8 l).bind (expectCh '-') |>.bind (hexRun 4) |>.bind (expectCh '-')
    |>.bind (hexRun 4) |>.bind (expectCh '-') |>.bind (hexRun 4)
    |>.bind (expectCh '-') |>.bind (hexRun 12)

/-- Character scan for the `uuid` pattern of the source: the 8-4-4-4-12 hex
form, bare or enclosed in curly braces. -/
def uuidMatch (s : String) : Bool :=
  let lb := Char.ofNat 123
  let rb := Char.ofNat 125
  match uuidCore s.data with
  | some [] => true
  | _ =>
    match (expectCh lb s.data).bind uuidCore |>.bind (expectCh rb) with
    | some [] => true
    | _ => false

/-- Six hex pairs joined by a fixed separator, for the `macaddr` pattern. -/
def macWithSep (sep : Char) (l : List Char) : Bool :=
  match (hexRun 2 l).bind (expectCh sep) |>.bind (hexRun 2) |>.bind (expectCh sep)
      |>.bind (hexRun 2) |>.bind (expectCh sep) |>.bind (hexRun 2)
      |>.bind (expectCh sep) |>.bind (hexRun 2) |>.bind (expectCh sep)
      |>.bind (hexRun 2) with
  | some [] => true
  | _ => false

/-- Character scan for the `macaddr` pattern of the source. -/
def macaddrMatch (s : String) : Bool :=
  macWithSep ':' s.data || macWithSep '-' s.data

/-- Split a character list at every occurrence of `sep` (no run merging),
as `net` does with the dots of a dotted quad. -/
def splitOnCh (sep : Char) : List Char → List (List Char)
  | [] => [[]]
  | c :: r =>
    let rest := splitOnCh sep r
    if c == sep then [] :: rest
    else
      match rest with
      | h :: t => (c :: h) :: t
      | [] => [[c]]

/-- Validity of one dotted-quad field per Go's `parseIPv4`: one to three
decimal digits, no leading zero in a multi-digit field, value at most 255. -/
def ipv4FieldOk (f : List Char) : Bool :=
  f ≠ [] && f.length ≤ 3 && f.all isDigitCh &&
    (f.length == 1 || f.headD '0' != '0') && digitsVal f ≤ 255

/-- Model of Go `net` IPv4 dotted-quad parsing: the four octet values, or
`none`.  IPv6 literal forms, which no claim exercises, are not modelled and
map to `none`. -/
def goParseIPv4 (s : String) : Option (List Nat) :=
  let parts := splitOnCh '.' s.data
  if parts.length == 4 && parts.all ipv4FieldOk then some (parts.map digitsVal)
  else none

/-- Model of Go `net.ParseIP` success (see `goParseIPv4` for scope). -/
def goParseIPOk (s : String) : Bool := (goParseIPv4 s).isSome

/-- Byte prefix Go uses for the 16-byte form of an IPv4 address
(the value `net.IPv4(a,b,c,d)` returns). -/
def v4InV6Prefix : List Nat := [0, 0, 0, 0, 0, 0, 0, 0, 0, 0, 255, 255]

/-- Value of one byte of `net.CIDRMask(n, 32)` when `k` of its bits
(clamped to 8) are ones from the top. -/
def maskByte (k : Nat) : Nat := 256 - 2 ^ (8 - min k 8)

/-- Model of Go `net.ParseCIDR` for IPv4 inputs: the string splits at the
first slash; the left part parses as a dotted quad; the right part is a
nonempty run of decimal digits with value at most 32.  The result mirrors
what the source observes of Go's return values: the address in Go's
16-byte form (`parseIPv4` returns `net.IPv4(...)`), and the network
address `ip.Mask(m)` in 4-byte form (`Mask` strips the 16-byte prefix when
the mask is 4 bytes long).  IPv6 CIDR inputs are not modelled (`none`). -/
def goParseCIDR (s : String) : Option (List Nat × List Nat) :=
  let p := s.data.span (fun c => !(c == '/'))
  match p.2 with
  | '/' :: maskPart =>
    match goParseIPv4 (String.mk p.1) with
    | none => none
    | some octets =>
      if maskPart ≠ [] && maskPart.all isDigitCh && digitsVal maskPart ≤ 32 then
        let n := digitsVal maskPart
        let netw := (List.range 4).map (fun j => octets.getD j 0 &&& maskByte (n - 8 * j))
        some (v4InV6Prefix ++ octets, netw)
      else none
  | _ => none

/-- Model of the external `dateparse.ParseAny` as far as this development
exercises it, returning the parsed hour, minute and second on success.
The faithful, load-bearing part is the failure behavior: a string
containing no ASCII digit (including the empty string) never parses, which
matches the library.  On the success side only the two plain ISO forms
`yyyy-mm-dd` (parsing to midnight) and `yyyy-mm-dd hh:mm:ss` are modelled;
the library's many other accepted formats are not (no claim depends on
them, and no theorem below evaluates this model on a digit-bearing string). -/
def goDateparseAny (s : String) : Option (Nat × Nat × Nat) :=
  if s.data.all (fun c => !isDigitCh c) then none
  else
    match s.data with
    | [y1, y2, y3, y4, '-', m1, m2, '-', d1, d2] =>
      if [y1, y2, y3, y4, m1, m2, d1, d2].all isDigitCh then some (0, 0, 0) else none
    | [y1, y2, y3, y4, '-', m1, m2, '-', d1, d2, ' ', h1, h2, ':', n1, n2, ':', s1, s2] =>
      if [y1, y2, y3, y4, m1, m2, d1, d2, h1, h2, n1, n2, s1, s2].all isDigitCh then
        some (digitsVal [h1, h2], digitsVal [n1, n2], digitsVal [s1, s2])
      else none
    | _ => none

/-! ## The csvpg data model (`csvpg.go`) -/

/-- The per-type state of the type-candidate engine, translated from the
source's `Type` struct after `tidy` has run: every type carries a uniform
`handle` function (the source wraps `Isa` predicates and compiled patterns
into `Handle` functions of the same shape).  A handler reads the value, the
column's enum-tracker state, and the two enum cutoffs of the configuration
(the source's handlers read them through `it.Config` at call time), and
returns its verdict together with the possibly updated tracker state.
The source's `flag` field (assigned positionally by `tidy` as `1 << i`) is
represented by the type's position `i` in the catalog list, a bitmask bit
being read with `Nat.testBit`. -/
structure Ty where
  name : String
  handle : Int → Int → String → List String → Bool × List String

/-- Wrapper turning a pure `Isa` predicate into a `Handle`-shaped function,
translated from the source's `makeWrapper` (and `makeMatcher`, whose
compiled patterns appear here as the explicit scans above). -/
def makeWrapper (f : String → Bool) : Int → Int → String → List String → Bool × List String :=
  fun _ _ s e => (f s, e)

/-- Character scan for the source's `enumRe` pattern: a letter followed by
letters, digits or underscores. -/
def isEnumToken (s : String) : Bool :=
  match s.data with
  | [] => false
  | c :: cs => isAlphaCh c && cs.all (fun x => isAlnumCh x || x == '_')

/-- Handler of the stateful `enum` type, translated from the source: reject
an empty or overlong value (Go `len` is byte length) or one failing the
token pattern letter (letter|digit|underscore)*; accept a value already
recorded; otherwise record it and accept only while the distinct count
stays within the cutoff. -/
def enumHandle : Int → Int → String → List String → Bool × List String :=
  fun enumLength enumCount s e =>
    if s.utf8ByteSize == 0 || decide ((s.utf8ByteSize : Int) > enumLength) then (false, e)
    else if !(isEnumToken s) then (false, e)
    else if s ∈ e then (true, e)
    else
      let e2 := e ++ [s]
      (decide ((e2.length : Int) ≤ enumCount), e2)

/-- The `cidr` detector of `NewConfig`: the value parses as CIDR notation
and the address Go returns compares byte-for-byte equal (`bytes.Compare`)
to the masked network address. -/
def cidrIsa (s : String) : Bool :=
  match goParseCIDR s with
  | none => false
  | some an => an.1 == an.2

/-- The `inet` detector of `NewConfig`: the value parses as a bare IP
literal, or `net.ParseCIDR` succeeds on it (the source performs no check
on the host bits in the CIDR case). -/
def inetIsa (s : String) : Bool :=
  goParseIPOk s || (goParseCIDR s).isSome

/-- The `date` detector of `NewConfig`: flexible date parsing succeeds and
the parsed time of day is exactly midnight. -/
def dateIsa (s : String) : Bool :=
  match goDateparseAny s with
  | none => false
  | some hms => hms.1 == 0 && hms.2.1 == 0 && hms.2.2 == 0

/-- The default type catalog built by `NewConfig`, in source order; position
in this list is the type's priority and its bitmask bit. -/
def defaultTypes : List Ty :=
  [⟨"integer", makeWrapper (fun s => goParseIntOk s (-(2 ^ 31)) (2 ^ 31 - 1))⟩,
   ⟨"bigint", makeWrapper (fun s => goParseIntOk s (-(2 ^ 63)) (2 ^ 63 - 1))⟩,
   ⟨"real", makeWrapper goParseFloatOk⟩,
   ⟨"double", makeWrapper goParseFloatOk⟩,
   ⟨"numeric", makeWrapper numericMatch⟩,
   ⟨"boolean", makeWrapper booleanMatch⟩,
   ⟨"bytea", makeWrapper byteaMatch⟩,
   ⟨"uuid", makeWrapper uuidMatch⟩,
   ⟨"cidr", makeWrapper cidrIsa⟩,
   ⟨"inet", makeWrapper inetIsa⟩,
   ⟨"macaddr", makeWrapper macaddrMatch⟩,
   ⟨"date", makeWrapper dateIsa⟩,
   ⟨"timestamptz", makeWrapper (fun s => (goDateparseAny s).isSome)⟩,
   ⟨"enum", enumHandle⟩,
   ⟨"text", makeWrapper (fun _ => true)⟩]

/-- The thirteen stateless entries of the default catalog (everything ahead
of the `enum` tracker), repeated verbatim from `defaultTypes`; naming this
prefix lets the enum-cutoff analysis split the catalog at the tracker. -/
def pureDefaults : List Ty :=
  [⟨"integer", makeWrapper (fun s => goParseIntOk s (-(2 ^ 31)) (2 ^ 31 - 1))⟩,
   ⟨"bigint", makeWrapper (fun s => goParseIntOk s (-(2 ^ 63)) (2 ^ 63 - 1))⟩,
   ⟨"real", makeWrapper goParseFloatOk⟩,
   ⟨"double", makeWrapper goParseFloatOk⟩,
   ⟨"numeric", makeWrapper numericMatch⟩,
   ⟨"boolean", makeWrapper booleanMatch⟩,
   ⟨"bytea", makeWrapper byteaMatch⟩,
   ⟨"uuid", makeWrapper uuidMatch⟩,
   ⟨"cidr", makeWrapper cidrIsa⟩,
   ⟨"inet", makeWrapper inetIsa⟩,
   ⟨"macaddr", makeWrapper macaddrMatch⟩,
   ⟨"date", makeWrapper dateIsa⟩,
   ⟨"timestamptz", makeWrapper (fun s => (goDateparseAny s).isSome)⟩]

/-- Configuration record, translated from the source's `Config`. -/
structure Config where
  snakeCase : Bool
  sample : Int
  columnNames : List String
  notNull : Bool
  readHeader : Bool
  enumLength : Int
  enumCount : Int
  types : List Ty
  exclude : List String
  tableName : String

/-- Default configuration, translated from `NewConfig` (fields the source
leaves at their Go zero values appear explicitly here). -/
def newConfig : Config :=
  { snakeCase := true
    sample := 0
    columnNames := []
    notNull := false
    readHeader := true
    enumLength := 10
    enumCount := 20
    types := defaultTypes
    exclude := []
    tableName := "" }

/-- Engine state, translated from the source's `Intuitor` struct.  The
configuration is passed to the functions explicitly instead of through the
struct's `Config` pointer.  The two final fields are ghost instrumentation
absent from the source, used only to state claims: `processedRows` records
each row `handleRow` processed, and `invoked` records each (column, type
position) pair whose detector was invoked. -/
structure Intuitor where
  columnNames : List String
  possibleTypes : List Nat
  enums : List (List String)
  columnTypes : List String
  null : List Bool
  row : Nat
  enumDDL : String
  tableDDL : String
  processedRows : List (List String)
  invoked : List (Nat × Nat)

/-- Fresh engine state (Go zero values). -/
def Intuitor.start : Intuitor :=
  { columnNames := [], possibleTypes := [], enums := [], columnTypes := []
    null := [], row := 0, enumDDL := "", tableDDL := ""
    processedRows := [], invoked := [] }

/-- Go's bit-clear operator `a &^ b`, written with kernel-accelerated
bitwise operations (`a AND NOT b = a XOR (a AND b)`). -/
def andNot (a b : Nat) : Nat := a ^^^ (a &&& b)

/-- Result of pushing one value through the catalog for one column. -/
structure NarrowResult where
  possibles : Nat
  enums : List String
  invoked : List Nat

/-- Inner loop of `handleRow` over the catalog, translated from the source:
for each type still in the column's possible set (checked against the
running local `possibles`, exactly as the source does), invoke its handler;
on rejection clear the type's bit.  `i` is the catalog position of the head
of `types`.  The `invoked` output is ghost instrumentation. -/
def narrowAux (cfg : Config) (v : String) :
    List Ty → Nat → Nat → List String → NarrowResult
  | [], _, p, e => ⟨p, e, []⟩
  | tp :: rest, i, p, e =>
    if Nat.testBit p i then
      let he := tp.handle cfg.enumLength cfg.enumCount v e
      let p2 := if he.1 then p else andNot p (2 ^ i)
      let r := narrowAux cfg v rest (i + 1) p2 he.2
      ⟨r.possibles, r.enums, i :: r.invoked⟩
    else narrowAux cfg v rest (i + 1) p e

/-- Push one value through the whole catalog for one column. -/
def narrow (cfg : Config) (v : String) (p : Nat) (e : List String) : NarrowResult :=
  narrowAux cfg v cfg.types 0 p e

/-- Per-column body of `handleRow`, translated from the source: an empty
value with null detection enabled only marks the column nullable; any other
value is narrowed through the catalog. -/
def handleCol (cfg : Config) (st : Intuitor) (col : Nat) (v : String) : Intuitor :=
  if v = "" ∧ cfg.notNull then
    { st with null := st.null.set col true }
  else
    { st with
      possibleTypes := st.possibleTypes.set col
        (narrow cfg v (st.possibleTypes.getD col 0) (st.enums.getD col [])).possibles
      enums := st.enums.set col
        (narrow cfg v (st.possibleTypes.getD col 0) (st.enums.getD col [])).enums
      invoked := st.invoked ++
        (narrow cfg v (st.possibleTypes.getD col 0) (st.enums.getD col [])).invoked.map
          (fun i => (col, i)) }

/-- Left-to-right pass over the values of one row, `col` being the index of
the head value. -/
def handleCols (cfg : Config) : Intuitor → Nat → List String → Intuitor
  | st, _, [] => st
  | st, col, v :: rest => handleCols cfg (handleCol cfg st col v) (col + 1) rest

/-- One `handleRow` call of the source (it always returns nil, so no error
is modelled); the `processedRows` append is ghost instrumentation. -/
def handleRow (cfg : Config) (st : Intuitor) (row : List String) : Intuitor :=
  let st2 := handleCols cfg st 0 row
  { st2 with processedRows := st2.processedRows ++ [row] }

/-! ## Identifier quoting and name mangling -/

/-- Character scan for the source's `needsQuoteRe` pattern: a lower-case
letter followed by lower-case letters, digits or underscores. -/
def plainIdent (s : String) : Bool :=
  match s.data with
  | [] => false
  | c :: cs => isLowerCh c && cs.all (fun x => isLowerCh x || isDigitCh x || x == '_')

/-- Double every double-quote character, as `strings.Replace` does in the
quoting functions. -/
def escDouble (s : String) : String :=
  String.mk (s.data.flatMap (fun c => if c == '"' then ['"', '"'] else [c]))

/-- Translated from the source's `QuoteIdent`: emit a plain identifier bare,
anything else wrapped in double quotes with inner quotes doubled. -/
def QuoteIdent (s : String) : String :=
  if plainIdent s then s else "\"" ++ escDouble s ++ "\""

/-- Translated from the source's `QuoteName`, with the reserved-word table
passed in as the membership test `kw`.  Modelled from the spec: the table
itself lives in a generated file (`keywords.go`) that is not part of the
sources here; the spec describes it as a fixed, immutable table of reserved
words, so it appears as an arbitrary fixed predicate. -/
def QuoteName (kw : String → Bool) (s : String) : String :=
  if !(kw s) && plainIdent s then s else "\"" ++ escDouble s ++ "\""

/-- Single-quote a literal, doubling inner single quotes, translated from
the source's `quoteLiteral`. -/
def quoteLiteral (s : String) : String :=
  String.mk ('\'' :: s.data.flatMap (fun c => if c == '\'' then ['\'', '\''] else [c]) ++ ['\''])

/-- Split a character list on maximal nonempty runs of non-alphanumeric
characters, with regexp `Split` semantics (leading, trailing and adjacent
separator runs produce empty pieces; a string without separators is one
piece). -/
def splitRuns : List Char → List (List Char)
  | [] => [[]]
  | c :: r =>
    if isAlnumCh c then
      match splitRuns r with
      | h :: t => (c :: h) :: t
      | [] => [[c]]
    else
      match r with
      | [] => [[], []]
      | d :: _ => if isAlnumCh d then [] :: splitRuns r else splitRuns r

/-- Join strings with a separator, as `strings.Join`. -/
def joinStr (sep : String) : List String → String
  | [] => ""
  | [x] => x
  | x :: xs => x ++ sep ++ joinStr sep xs

/-- Translated from the source's `snake`: split on runs of non-alphanumeric
characters, join with underscores, lower-case the result. -/
def snake (s : String) : String :=
  let joined := joinStr "_" ((splitRuns s.data).map String.mk)
  String.mk (joined.data.map lowerCh)

/-! ## The `Intuit` driver -/

/-- Translated from the source's `Config.tidy`.  Flags are positional in
this embedding, and every catalog entry already carries a `Handle`-shaped
function (see `Ty`), so the error cases of `tidy` (a type with no detection
logic, an uncompilable pattern) cannot arise here; what remains is the
table-name default. -/
def tidy (c : Config) : Config :=
  { c with tableName := if c.tableName = "" then "my_table" else c.tableName }

/-- Accumulation of the `allPossibleTypes` bitmask of `Intuit`: skip the
enum type when the enum count is configured as zero, skip excluded names,
OR in the flag of every other type. -/
def allPossibleAux (ec : Int) (ex : List String) : List Ty → Nat → Nat → Nat
  | [], _, acc => acc
  | tp :: rest, i, acc =>
    allPossibleAux ec ex rest (i + 1)
      (if (tp.name = "enum" ∧ ec = 0) ∨ tp.name ∈ ex then acc else acc ||| 2 ^ i)

/-- The initial possible set shared by all columns. -/
def allPossibleTypes (cfg : Config) : Nat :=
  allPossibleAux cfg.enumCount cfg.exclude cfg.types 0 0

/-- One row-read result of the abstract `RowReader` collaborator: a row or
a read error; reading past the end of the list models `io.EOF`. -/
abbrev ReadResult := Except String (List String)

/-- Translated from the row loop of `Intuit`: before each read, stop when a
nonzero sample limit is exceeded by the row counter; then read (end of
input modelling `io.EOF`, which still bumps the counter, as the source
increments `c.row` right after every `Read`), fail on a read error or a row
of the wrong width, otherwise narrow and continue. -/
def intuitLoop (cfg : Config) : Intuitor → List ReadResult → Intuitor × Option String
  | st, [] =>
    if cfg.sample ≠ 0 ∧ (st.row : Int) > cfg.sample then (st, none)
    else ({ st with row := st.row + 1 }, none)
  | st, Except.error e :: _ =>
    if cfg.sample ≠ 0 ∧ (st.row : Int) > cfg.sample then (st, none)
    else ({ st with row := st.row + 1 }, some ("Error reading row: " ++ e))
  | st, Except.ok row :: rest =>
    if cfg.sample ≠ 0 ∧ (st.row : Int) > cfg.sample then (st, none)
    else
      if row.length ≠ st.columnNames.length then
        ({ st with row := st.row + 1 }, some "Row has the wrong number of fields")
      else intuitLoop cfg (handleRow cfg { st with row := st.row + 1 } row) rest

/-- Translated from the type-decision loop of `Intuit`: walk the catalog in
order (the head of `types` sitting at bit `i`) and return the name of the
first type whose flag is still in the possible set, or the empty string
(the Go zero value the source leaves in place) if none is. -/
def resolveAux : List Ty → Nat → Nat → String
  | [], _, _ => ""
  | tp :: rest, i, p => if Nat.testBit p i then tp.name else resolveAux rest (i + 1) p

/-- Resolution of one column's possible set against a catalog. -/
def resolveOne (types : List Ty) (p : Nat) : String := resolveAux types 0 p

/-- Translated from the enum patch-up loop of `Intuit`: every column whose
resolved type is `enum` gets a fresh enum type named after the column, its
members the recorded distinct values, and contributes one `create type`
statement.  The source iterates the Go map in unspecified order; this
embedding uses the tracker's insertion order (the member set is identical). -/
def patchEnums (names : List String) (enums : List (List String)) :
    List String → Nat → String × List String
  | [], _ => ("", [])
  | ct :: rest, col =>
    let r := patchEnums names enums rest (col + 1)
    if ct = "enum" then
      let enumValues := (enums.getD col []).map (fun v => "  " ++ quoteLiteral v)
      let enumName := names.getD col "" ++ "_enum"
      ("create type " ++ QuoteIdent enumName ++ " as enum (\n" ++
         joinStr ",\n" enumValues ++ "\n);\n\n" ++ r.1,
       enumName :: r.2)
    else (r.1, ct :: r.2)

/-- Translated from the tail of `Intuit` (after the row loop): decide the
column types, patch up enums, and render the `create table` statement. -/
def finish (cfg : Config) (kw : String → Bool) (st : Intuitor) : Intuitor :=
  let columnTypes :=
    (List.range st.columnNames.length).map
      (fun col => resolveOne cfg.types (st.possibleTypes.getD col 0))
  let patched := patchEnums st.columnNames st.enums columnTypes 0
  let rows :=
    (List.range patched.2.length).map
      (fun i =>
        let nn := if st.null.getD i false then "" else " not null"
        "  " ++ QuoteName kw (st.columnNames.getD i "") ++ " " ++
          QuoteIdent (patched.2.getD i "") ++ nn)
  { st with
    columnTypes := patched.2
    enumDDL := patched.1
    tableDDL :=
      "create table " ++ QuoteName kw cfg.tableName ++ " (\n" ++
        joinStr ",\n" rows ++ "\n);\n" }

/-- The column names `intuitBody` settles on: those carried in from the
header phase if any, else the explicitly configured ones, else synthetic
positional names derived from the first row. -/
def bodyNames (cfg : Config) (st : Intuitor) (firstrow : List String) : List String :=
  if st.columnNames.length = 0 then
    if cfg.columnNames.length ≠ 0 then cfg.columnNames
    else (List.range firstrow.length).map (fun i => "col" ++ toString i)
  else st.columnNames

/-- The per-column state `Intuit` builds once the column count is known
(the source's assignments between the first-row read and the first
`handleRow` call): every column starts from the shared initial possible
set, an empty enum tracker and a clear null flag. -/
def initState (cfg : Config) (st : Intuitor) (names : List String) : Intuitor :=
  { st with
    row := st.row + 1
    columnNames := names
    possibleTypes := List.replicate names.length (allPossibleTypes cfg)
    enums := List.replicate names.length ([] : List String)
    null := List.replicate names.length false }

/-- Body of `Intuit` from the first-row read onward: fix the column names
and count, check the first row's width, initialize the per-column state,
process the first row, run the loop, then resolve and emit. -/
def intuitBody (cfg : Config) (kw : String → Bool) (st : Intuitor)
    (input : List ReadResult) : Intuitor × Option String :=
  match input with
  | [] => ({ st with row := st.row + 1 }, some "Failed to read first row: EOF")
  | Except.error e :: _ =>
    ({ st with row := st.row + 1 }, some ("Failed to read first row: " ++ e))
  | Except.ok firstrow :: rest =>
    if firstrow.length ≠ (bodyNames cfg st firstrow).length then
      ({ st with row := st.row + 1, columnNames := bodyNames cfg st firstrow },
        some "Header length does not match length of first row")
    else
      match intuitLoop cfg
          (handleRow cfg (initState cfg st (bodyNames cfg st firstrow)) firstrow) rest with
      | (st5, some e) => (st5, some e)
      | (st5, none) => (finish cfg kw st5, none)

/-- Translated from the source's `Intuitor.Intuit`, the whole inference
run: tidy the configuration, optionally read and name-normalize the header,
then hand over to `intuitBody`.  The reserved-word table of `QuoteName` is
the parameter `kw` (see there).  The returned `Option String` is the Go
error; the `Intuitor` is the struct's final state on either path. -/
def Intuit (cfg0 : Config) (kw : String → Bool) (input : List ReadResult) :
    Intuitor × Option String :=
  if (tidy cfg0).readHeader then
    match input with
    | [] => ({ Intuitor.start with row := 1 }, some "Failed to read header: EOF")
    | Except.error e :: _ =>
      ({ Intuitor.start with row := 1 }, some ("Failed to read header: " ++ e))
    | Except.ok header :: rest =>
      intuitBody (tidy cfg0) kw
        { Intuitor.start with
          row := 1
          columnNames := if (tidy cfg0).snakeCase then header.map snake else header } rest
  else intuitBody (tidy cfg0) kw Intuitor.start input

/-- Ordered-distinct accumulation, exactly the way the enum tracker records
values; used to state the enum-cutoff claim. -/
def insertDistinct (l : List String) (s : String) : List String :=
  if s ∈ l then l else l ++ [s]

/-- The distinct values of a list in first-occurrence order. -/
def distinctVals (vs : List String) : List String := vs.foldl insertDistinct []

/-- Iterated `handleRow`: the engine state after a sequence of `processRow`
calls, used to state the monotone-narrowing claim. -/
def processRows (cfg : Config) (st : Intuitor) (rows : List (List String)) : Intuitor :=
  rows.foldl (handleRow cfg) st

/-- Configuration of an enum-detection run over a single column, used to
state the enum-cutoff claim: the default catalog with the enum distinct
cutoff set to `K`, no header, and one explicitly named column. -/
def enumRunConfig (K : Nat) (nm tname : String) : Config :=
  { newConfig with
    enumCount := (K : Int)
    readHeader := false
    columnNames := [nm]
    tableName := tname }

/-- Configuration of a run with null detection off, used to state the
empty-field claim: the default catalog, no header, explicit column names. -/
def noNullConfig (names : List String) (tname : String) : Config :=
  { newConfig with
    notNull := false
    readHeader := false
    columnNames := names
    tableName := tname }

/-- One-column engine state over the given possible set, used by concrete
witness instantiations of the claims. -/
def oneColState (p : Nat) : Intuitor :=
  { Intuitor.start with
    columnNames := ["a"]
    possibleTypes := [p]
    enums := [[]]
    null := [false] }

/-- A run configuration with null detection switched on, as the command
line front end defaults to. -/
def notNullConfig : Config :=
  { newConfig with notNull := true }

/-! ## List and bitmask helper lemmas -/

theorem getD_set_ne {α : Type} (l : List α) (i j : Nat) (a d : α) (h : i ≠ j) :
    (l.set i a).getD j d = l.getD j d := by
  induction l generalizing i j with
  | nil => simp [List.set]
  | cons x xs ih =>
    cases i with
    | zero =>
      cases j with
      | zero => exact absurd rfl h
      | succ j2 => simp [List.set, List.getD]
    | succ i2 =>
      cases j with
      | zero => simp [List.set, List.getD]
      | succ j2 =>
        simp only [List.set, List.getD_cons_succ]
        exact ih i2 j2 (fun he => h (by rw [he]))

theorem getD_set_self {α : Type} (l : List α) (i : Nat) (a d : α) (h : i < l.length) :
    (l.set i a).getD i d = a := by
  induction l generalizing i with
  | nil => simp at h
  | cons x xs ih =>
    cases i with
    | zero => simp [List.set, List.getD]
    | succ i2 =>
      simp only [List.set, List.getD_cons_succ]
      exact ih i2 (Nat.lt_of_succ_lt_succ h)

theorem getD_replicate {α : Type} (n c : Nat) (a d : α) (h : c < n) :
    (List.replicate n a).getD c d = a := by
  induction n generalizing c with
  | zero => simp at h
  | succ m ih =>
    cases c with
    | zero => simp [List.replicate, List.getD]
    | succ c2 =>
      simp only [List.replicate, List.getD_cons_succ]
      exact ih c2 (Nat.lt_of_succ_lt_succ h)

theorem getD_range_map {α : Type} (f : Nat → α) (n c : Nat) (d : α) (h : c < n) :
    ((List.range n).map f).getD c d = f c := by
  simp [List.getD, List.getElem?_map, List.getElem?_range h]

theorem testBit_andNot (a b j : Nat) :
    (andNot a b).testBit j = (a.testBit j && !(b.testBit j)) := by
  unfold andNot
  rw [Nat.testBit_xor, Nat.testBit_land]
  cases a.testBit j <;> cases b.testBit j <;> rfl

theorem testBit_andNot_pow_ne (p i j : Nat) (h : j ≠ i) :
    (andNot p (2 ^ i)).testBit j = p.testBit j := by
  rw [testBit_andNot, Nat.testBit_two_pow_of_ne (fun he => h he.symm)]
  cases p.testBit j <;> rfl

theorem testBit_andNot_pow_self (p i : Nat) :
    (andNot p (2 ^ i)).testBit i = false := by
  rw [testBit_andNot, Nat.testBit_two_pow_self]
  cases p.testBit i <;> rfl

/-! ## Lemmas about the catalog pass (`narrowAux`) -/

/-- Narrowing never adds a type to the possible set: a bit set afterwards
was set before. -/
theorem narrowAux_subset (cfg : Config) (v : String) (types : List Ty)
    (i p : Nat) (e : List String) (j : Nat)
    (h : (narrowAux cfg v types i p e).possibles.testBit j = true) :
    p.testBit j = true := by
  induction types generalizing i p e with
  | nil => simpa [narrowAux] using h
  | cons tp rest ih =>
    rw [narrowAux] at h
    by_cases hb : p.testBit i
    · simp only [hb, if_true] at h
      by_cases hv : (tp.handle cfg.enumLength cfg.enumCount v e).1
      · simp only [hv, if_true] at h
        exact ih (i + 1) p _ h
      · simp only [hv, if_false] at h
        have h2 := ih (i + 1) (andNot p (2 ^ i)) _ h
        by_cases hj : j = i
        · subst hj; rw [testBit_andNot_pow_self] at h2; exact absurd h2 (by simp)
        · rwa [testBit_andNot_pow_ne p i j hj] at h2
    · simp only [hb, if_false] at h
      exact ih (i + 1) p e h

/-- A detector is only invoked for a type that is still in the possible
set at the start of the catalog pass. -/
theorem narrowAux_invoked (cfg : Config) (v : String) (types : List Ty)
    (i p : Nat) (e : List String) (j : Nat)
    (h : j ∈ (narrowAux cfg v types i p e).invoked) :
    p.testBit j = true := by
  induction types generalizing i p e with
  | nil => simp [narrowAux] at h
  | cons tp rest ih =>
    rw [narrowAux] at h
    by_cases hb : p.testBit i
    · simp only [hb, if_true, List.mem_cons] at h
      rcases h with h | h
      · subst h; exact hb
      · by_cases hv : (tp.handle cfg.enumLength cfg.enumCount v e).1
        · simp only [hv, if_true] at h
          exact ih (i + 1) p _ h
        · simp only [hv, if_false] at h
          have h2 := ih (i + 1) (andNot p (2 ^ i)) _ h
          by_cases hj : j = i
          · subst hj; exact hb
          · rwa [testBit_andNot_pow_ne p i j hj] at h2
    · simp only [hb, if_false] at h
      exact ih (i + 1) p e h

/-- Bit `j` is unchanged by a catalog pass whenever every handler the pass
could consult at position `j` always accepts; this also covers bits outside
the window of the pass (the hypothesis is then vacuous). -/
theorem narrowAux_keep (cfg : Config) (v : String) (types : List Ty)
    (i p : Nat) (e : List String) (j : Nat)
    (h : ∀ k (hk : k < types.length), i + k = j →
      ∀ e2, ((types.get ⟨k, hk⟩).handle cfg.enumLength cfg.enumCount v e2).1 = true) :
    (narrowAux cfg v types i p e).possibles.testBit j = p.testBit j := by
  induction types generalizing i p e with
  | nil => simp [narrowAux]
  | cons tp rest ih =>
    rw [narrowAux]
    have hshift : ∀ k (hk : k < rest.length), i + 1 + k = j →
        ∀ e2, ((rest.get ⟨k, hk⟩).handle cfg.enumLength cfg.enumCount v e2).1 = true := by
      intro k hk hkj e2
      have := h (k + 1) (by simpa using Nat.succ_lt_succ hk) (by omega) e2
      simpa using this
    cases hb : p.testBit i with
    | true =>
      simp only [hb, if_true]
      by_cases hij : i = j
      · have hacc := h 0 (by simp) (by omega) e
        simp only [List.get] at hacc
        simp only [hacc, if_true]
        exact ih (i + 1) p _ hshift
      · cases hv : (tp.handle cfg.enumLength cfg.enumCount v e).1 with
        | true =>
          simp only [hv, if_true]
          exact ih (i + 1) p _ hshift
        | false =>
          simp only [hv, Bool.false_eq_true, if_false]
          rw [ih (i + 1) (andNot p (2 ^ i)) _ hshift]
          exact testBit_andNot_pow_ne p i j (fun he => hij he.symm)
    | false =>
      simp only [hb, Bool.false_eq_true, if_false]
      exact ih (i + 1) p e hshift

/-- Bit `j` is cleared by a catalog pass whenever the handler at position
`j` always rejects the value (whatever the tracker state). -/
theorem narrowAux_reject (cfg : Config) (v : String) (types : List Ty)
    (i p : Nat) (e : List String) (j k : Nat) (hk : k < types.length)
    (hkj : i + k = j)
    (hrej : ∀ e2, ((types.get ⟨k, hk⟩).handle cfg.enumLength cfg.enumCount v e2).1 = false) :
    (narrowAux cfg v types i p e).possibles.testBit j = false := by
  induction types generalizing i p e k with
  | nil => simp at hk
  | cons tp rest ih =>
    rw [narrowAux]
    cases k with
    | zero =>
      have hij : i = j := by omega
      subst hij
      cases hb : p.testBit i with
      | true =>
        simp only [hb, if_true]
        have hr := hrej e
        simp only [List.get] at hr
        simp only [hr, Bool.false_eq_true, if_false]
        have hcleared : (andNot p (2 ^ i)).testBit i = false := testBit_andNot_pow_self p i
        cases hres : (narrowAux cfg v rest (i + 1) (andNot p (2 ^ i))
            ((tp.handle cfg.enumLength cfg.enumCount v e).2)).possibles.testBit i with
        | true =>
          have := narrowAux_subset cfg v rest (i + 1) _ _ i hres
          rw [hcleared] at this; exact absurd this (by simp)
        | false => rfl
      | false =>
        simp only [hb, Bool.false_eq_true, if_false]
        cases hres : (narrowAux cfg v rest (i + 1) p e).possibles.testBit i with
        | true =>
          have := narrowAux_subset cfg v rest (i + 1) _ _ i hres
          rw [hb] at this; exact absurd this (by simp)
        | false => rfl
    | succ k2 =>
      have hk2 : k2 < rest.length := by simpa using Nat.lt_of_succ_lt_succ hk
      have hrej2 : ∀ e2, ((rest.get ⟨k2, hk2⟩).handle cfg.enumLength cfg.enumCount v e2).1 = false := by
        intro e2; have := hrej e2; simpa using this
      cases hb : p.testBit i with
      | true =>
        simp only [hb, if_true]
        cases hv : (tp.handle cfg.enumLength cfg.enumCount v e).1 with
        | true =>
          simp only [hv, if_true]
          exact ih (i + 1) p _ k2 hk2 (by omega) hrej2
        | false =>
          simp only [hv, Bool.false_eq_true, if_false]
          exact ih (i + 1) (andNot p (2 ^ i)) _ k2 hk2 (by omega) hrej2
      | false =>
        simp only [hb, Bool.false_eq_true, if_false]
        exact ih (i + 1) p e k2 hk2 (by omega) hrej2

/-- A catalog pass over a concatenation is the pass over the first part
followed by the pass over the second, with the bit window shifted (stated
for the possible set and the tracker state). -/
theorem narrowAux_append (cfg : Config) (v : String) (l1 l2 : List Ty)
    (i p : Nat) (e : List String) :
    (narrowAux cfg v (l1 ++ l2) i p e).possibles =
      (narrowAux cfg v l2 (i + l1.length) (narrowAux cfg v l1 i p e).possibles
        (narrowAux cfg v l1 i p e).enums).possibles ∧
    (narrowAux cfg v (l1 ++ l2) i p e).enums =
      (narrowAux cfg v l2 (i + l1.length) (narrowAux cfg v l1 i p e).possibles
        (narrowAux cfg v l1 i p e).enums).enums := by
  induction l1 generalizing i p e with
  | nil => simp [narrowAux]
  | cons tp rest ih =>
    simp only [List.cons_append, narrowAux]
    have harith : i + 1 + rest.length = i + (rest.length + 1) := by omega
    cases hb : p.testBit i with
    | true =>
      simp only [hb, if_true]
      have h1 := ih (i + 1)
        (if (tp.handle cfg.enumLength cfg.enumCount v e).1 then p else andNot p (2 ^ i))
        ((tp.handle cfg.enumLength cfg.enumCount v e).2)
      rw [harith] at h1
      simpa using h1
    | false =>
      simp only [hb, Bool.false_eq_true, if_false]
      have h1 := ih (i + 1) p e
      rw [harith] at h1
      simpa using h1

/-- A catalog pass consisting only of handlers that never touch the tracker
state leaves the tracker state unchanged. -/
theorem narrowAux_pure_enums (cfg : Config) (v : String) (types : List Ty)
    (i p : Nat) (e : List String)
    (h : ∀ tp ∈ types, ∀ e2, (tp.handle cfg.enumLength cfg.enumCount v e2).2 = e2) :
    (narrowAux cfg v types i p e).enums = e := by
  induction types generalizing i p e with
  | nil => simp [narrowAux]
  | cons tp rest ih =>
    rw [narrowAux]
    have hrest : ∀ tp2 ∈ rest, ∀ e2, (tp2.handle cfg.enumLength cfg.enumCount v e2).2 = e2 :=
      fun tp2 hm e2 => h tp2 (List.mem_cons_of_mem tp hm) e2
    by_cases hb : p.testBit i
    · simp only [hb, if_true]
      rw [ih (i + 1) _ _ hrest, h tp (List.mem_cons_self tp rest) e]
    · simp only [hb, if_false]
      exact ih (i + 1) p e hrest

/-! ## Lemmas about row processing (`handleCol`, `handleCols`, `handleRow`) -/

/-- Fields of the engine state `handleCol` never writes, and the lengths it
preserves. -/
theorem handleCol_fields (cfg : Config) (st : Intuitor) (col : Nat) (v : String) :
    (handleCol cfg st col v).columnNames = st.columnNames ∧
    (handleCol cfg st col v).row = st.row ∧
    (handleCol cfg st col v).processedRows = st.processedRows ∧
    (handleCol cfg st col v).enumDDL = st.enumDDL ∧
    (handleCol cfg st col v).tableDDL = st.tableDDL ∧
    (handleCol cfg st col v).possibleTypes.length = st.possibleTypes.length ∧
    (handleCol cfg st col v).enums.length = st.enums.length ∧
    (handleCol cfg st col v).null.length = st.null.length := by
  unfold handleCol
  split <;> simp

/-- Entries of other columns are untouched by `handleCol`. -/
theorem handleCol_getD_ne (cfg : Config) (st : Intuitor) (c0 : Nat) (v : String)
    (col : Nat) (h : c0 ≠ col) :
    (handleCol cfg st c0 v).possibleTypes.getD col 0 = st.possibleTypes.getD col 0 ∧
    (handleCol cfg st c0 v).enums.getD col [] = st.enums.getD col [] ∧
    (handleCol cfg st c0 v).null.getD col false = st.null.getD col false := by
  unfold handleCol
  split
  · exact ⟨rfl, rfl, getD_set_ne _ _ _ _ _ h⟩
  · exact ⟨getD_set_ne _ _ _ _ _ h, getD_set_ne _ _ _ _ _ h, rfl⟩

/-- Same for `handleCols`, for a column outside the window of the pass. -/
theorem handleCols_out (cfg : Config) (st : Intuitor) (c0 : Nat) (vs : List String)
    (col : Nat) (h : col < c0 ∨ c0 + vs.length ≤ col) :
    (handleCols cfg st c0 vs).possibleTypes.getD col 0 = st.possibleTypes.getD col 0 ∧
    (handleCols cfg st c0 vs).enums.getD col [] = st.enums.getD col [] ∧
    (handleCols cfg st c0 vs).null.getD col false = st.null.getD col false := by
  induction vs generalizing st c0 with
  | nil => simp [handleCols]
  | cons v rest ih =>
    rw [handleCols]
    have hne : c0 ≠ col := by
      rcases h with h | h
      · omega
      · simp only [List.length_cons] at h; omega
    have h2 : col < c0 + 1 ∨ c0 + 1 + rest.length ≤ col := by
      rcases h with h | h
      · left; omega
      · right; simp only [List.length_cons] at h; omega
    have hstep := handleCol_getD_ne cfg st c0 v col hne
    have hrest := ih (handleCol cfg st c0 v) (c0 + 1) h2
    exact ⟨hrest.1.trans hstep.1, hrest.2.1.trans hstep.2.1, hrest.2.2.trans hstep.2.2⟩

/-- Fields of the engine state the whole row pass never writes. -/
theorem handleCols_fields (cfg : Config) (st : Intuitor) (c0 : Nat) (vs : List String) :
    (handleCols cfg st c0 vs).columnNames = st.columnNames ∧
    (handleCols cfg st c0 vs).row = st.row ∧
    (handleCols cfg st c0 vs).processedRows = st.processedRows ∧
    (handleCols cfg st c0 vs).enumDDL = st.enumDDL ∧
    (handleCols cfg st c0 vs).tableDDL = st.tableDDL ∧
    (handleCols cfg st c0 vs).possibleTypes.length = st.possibleTypes.length ∧
    (handleCols cfg st c0 vs).enums.length = st.enums.length ∧
    (handleCols cfg st c0 vs).null.length = st.null.length := by
  induction vs generalizing st c0 with
  | nil => simp [handleCols]
  | cons v rest ih =>
    rw [handleCols]
    have hstep := handleCol_fields cfg st c0 v
    have hrest := ih (handleCol cfg st c0 v) (c0 + 1)
    refine ⟨hrest.1.trans hstep.1, hrest.2.1.trans hstep.2.1,
      hrest.2.2.1.trans hstep.2.2.1, hrest.2.2.2.1.trans hstep.2.2.2.1,
      hrest.2.2.2.2.1.trans hstep.2.2.2.2.1, hrest.2.2.2.2.2.1.trans hstep.2.2.2.2.2.1,
      hrest.2.2.2.2.2.2.1.trans hstep.2.2.2.2.2.2.1,
      hrest.2.2.2.2.2.2.2.trans hstep.2.2.2.2.2.2.2⟩

/-- The column whose value is not skipped receives exactly one catalog pass,
run against its entries in the incoming state. -/
theorem handleCols_at (cfg : Config) (st : Intuitor) (c0 : Nat) (vs : List String)
    (col j : Nat) (hj : j < vs.length) (hcol : col = c0 + j)
    (hlp : col < st.possibleTypes.length) (hle : col < st.enums.length)
    (hne : ¬(vs.get ⟨j, hj⟩ = "" ∧ cfg.notNull)) :
    (handleCols cfg st c0 vs).possibleTypes.getD col 0 =
      (narrow cfg (vs.get ⟨j, hj⟩) (st.possibleTypes.getD col 0) (st.enums.getD col [])).possibles ∧
    (handleCols cfg st c0 vs).enums.getD col [] =
      (narrow cfg (vs.get ⟨j, hj⟩) (st.possibleTypes.getD col 0) (st.enums.getD col [])).enums := by
  induction vs generalizing st c0 j with
  | nil => simp at hj
  | cons v rest ih =>
    rw [handleCols]
    cases j with
    | zero =>
      have hc : col = c0 := by omega
      subst hc
      simp only [List.get] at hne ⊢
      have hstep : (handleCol cfg st col v).possibleTypes.getD col 0 =
            (narrow cfg v (st.possibleTypes.getD col 0) (st.enums.getD col [])).possibles ∧
          (handleCol cfg st col v).enums.getD col [] =
            (narrow cfg v (st.possibleTypes.getD col 0) (st.enums.getD col [])).enums := by
        unfold handleCol
        rw [if_neg hne]
        exact ⟨getD_set_self _ _ _ _ hlp, getD_set_self _ _ _ _ hle⟩
      have hout := handleCols_out cfg (handleCol cfg st col v) (col + 1) rest col (by omega)
      exact ⟨hout.1.trans hstep.1, hout.2.1.trans hstep.2⟩
    | succ j2 =>
      have hne0 : c0 ≠ col := by omega
      have hstep := handleCol_getD_ne cfg st c0 v col hne0
      have hlen := handleCol_fields cfg st c0 v
      have hj2 : j2 < rest.length := by simpa using Nat.lt_of_succ_lt_succ hj
      have := ih (handleCol cfg st c0 v) (c0 + 1) j2 hj2 (by omega)
        (by rw [hlen.2.2.2.2.2.1]; exact hlp) (by rw [hlen.2.2.2.2.2.2.1]; exact hle)
        (by simpa using hne)
      rw [hstep.1, hstep.2.1] at this
      simpa using this

/-- The column whose value is empty (with null detection on) is only marked
nullable: its possible set and tracker state are untouched. -/
theorem handleCols_empty_at (cfg : Config) (st : Intuitor) (c0 : Nat) (vs : List String)
    (col j : Nat) (hj : j < vs.length) (hcol : col = c0 + j)
    (hln : col < st.null.length)
    (hemp : vs.get ⟨j, hj⟩ = "" ∧ cfg.notNull) :
    (handleCols cfg st c0 vs).possibleTypes.getD col 0 = st.possibleTypes.getD col 0 ∧
    (handleCols cfg st c0 vs).enums.getD col [] = st.enums.getD col [] ∧
    (handleCols cfg st c0 vs).null.getD col false = true := by
  induction vs generalizing st c0 j with
  | nil => simp at hj
  | cons v rest ih =>
    rw [handleCols]
    cases j with
    | zero =>
      have hc : col = c0 := by omega
      subst hc
      simp only [List.get] at hemp
      have hstep : (handleCol cfg st col v).possibleTypes.getD col 0 = st.possibleTypes.getD col 0 ∧
          (handleCol cfg st col v).enums.getD col [] = st.enums.getD col [] ∧
          (handleCol cfg st col v).null.getD col false = true := by
        unfold handleCol
        rw [if_pos hemp]
        exact ⟨rfl, rfl, getD_set_self _ _ _ _ hln⟩
      have hout := handleCols_out cfg (handleCol cfg st col v) (col + 1) rest col (by omega)
      exact ⟨hout.1.trans hstep.1, hout.2.1.trans hstep.2.1, hout.2.2.trans hstep.2.2⟩
    | succ j2 =>
      have hne0 : c0 ≠ col := by omega
      have hstep := handleCol_getD_ne cfg st c0 v col hne0
      have hlen := handleCol_fields cfg st c0 v
      have hj2 : j2 < rest.length := by simpa using Nat.lt_of_succ_lt_succ hj
      have := ih (handleCol cfg st c0 v) (c0 + 1) j2 hj2 (by omega)
        (by rw [hlen.2.2.2.2.2.2.2]; exact hln) (by simpa using hemp)
      rw [hstep.1, hstep.2.1] at this
      simpa using this

/-- Monotonicity of one `handleCol` step: a possible-set bit set afterwards
was set before, at every column. -/
theorem handleCol_subset (cfg : Config) (st : Intuitor) (c0 : Nat) (v : String)
    (col j : Nat)
    (h : ((handleCol cfg st c0 v).possibleTypes.getD col 0).testBit j = true) :
    (st.possibleTypes.getD col 0).testBit j = true := by
  by_cases hc : c0 = col
  · subst hc
    unfold handleCol at h
    split at h
    · exact h
    · by_cases hlt : c0 < st.possibleTypes.length
      · rw [getD_set_self _ _ _ _ hlt] at h
        exact narrowAux_subset _ _ _ _ _ _ _ h
      · rw [List.set_eq_of_length_le (Nat.le_of_not_lt hlt)] at h
        exact h
  · rw [(handleCol_getD_ne cfg st c0 v col hc).1] at h
    exact h

/-- Monotonicity of a whole row pass. -/
theorem handleCols_subset (cfg : Config) (st : Intuitor) (c0 : Nat) (vs : List String)
    (col j : Nat)
    (h : ((handleCols cfg st c0 vs).possibleTypes.getD col 0).testBit j = true) :
    (st.possibleTypes.getD col 0).testBit j = true := by
  induction vs generalizing st c0 with
  | nil => simpa [handleCols] using h
  | cons v rest ih =>
    rw [handleCols] at h
    exact handleCol_subset cfg st c0 v col j (ih (handleCol cfg st c0 v) (c0 + 1) h)

/-- A bit whose handler always accepts is unchanged by one `handleCol`
step, at every column. -/
theorem handleCol_keep (cfg : Config) (st : Intuitor) (c0 : Nat) (v : String)
    (col k : Nat)
    (hcatch : ∀ (hlt : k < cfg.types.length) (v2 : String) (e2 : List String),
      ((cfg.types.get ⟨k, hlt⟩).handle cfg.enumLength cfg.enumCount v2 e2).1 = true) :
    ((handleCol cfg st c0 v).possibleTypes.getD col 0).testBit k =
      (st.possibleTypes.getD col 0).testBit k := by
  by_cases hc : c0 = col
  · subst hc
    unfold handleCol
    split
    · rfl
    · by_cases hlt : c0 < st.possibleTypes.length
      · rw [getD_set_self _ _ _ _ hlt]
        exact narrowAux_keep cfg v cfg.types 0 _ _ k
          (fun k2 hk2 hkj e2 => by
            have hk : k2 = k := by omega
            subst hk
            exact hcatch hk2 v e2)
      · rw [List.set_eq_of_length_le (Nat.le_of_not_lt hlt)]
  · exact congrArg (fun x => x.testBit k) (handleCol_getD_ne cfg st c0 v col hc).1

/-- A bit whose handler always accepts is unchanged by a whole row pass. -/
theorem handleCols_keep (cfg : Config) (st : Intuitor) (c0 : Nat) (vs : List String)
    (col k : Nat)
    (hcatch : ∀ (hlt : k < cfg.types.length) (v2 : String) (e2 : List String),
      ((cfg.types.get ⟨k, hlt⟩).handle cfg.enumLength cfg.enumCount v2 e2).1 = true) :
    ((handleCols cfg st c0 vs).possibleTypes.getD col 0).testBit k =
      (st.possibleTypes.getD col 0).testBit k := by
  induction vs generalizing st c0 with
  | nil => simp [handleCols]
  | cons v rest ih =>
    rw [handleCols]
    exact (ih (handleCol cfg st c0 v) (c0 + 1)).trans
      (handleCol_keep cfg st c0 v col k hcatch)

/-- Ghost-log additions of one `handleCol` step: a detector invocation
recorded for a column concerns a type still in that column's set. -/
theorem handleCol_invoked (cfg : Config) (st : Intuitor) (c0 : Nat) (v : String)
    (c i : Nat) (h : (c, i) ∈ (handleCol cfg st c0 v).invoked) :
    (c, i) ∈ st.invoked ∨ (c = c0 ∧ (st.possibleTypes.getD c0 0).testBit i = true) := by
  unfold handleCol at h
  split at h
  · exact Or.inl h
  · simp only [List.mem_append, List.mem_map] at h
    rcases h with h | ⟨i2, hmem, heq⟩
    · exact Or.inl h
    · have hc : c = c0 := by cases heq; rfl
      have hi : i2 = i := by cases heq; rfl
      subst hc; subst hi
      exact Or.inr ⟨rfl, narrowAux_invoked _ _ _ _ _ _ _ hmem⟩

/-- Ghost-log additions of a row pass. -/
theorem handleCols_invoked (cfg : Config) (st : Intuitor) (c0 : Nat) (vs : List String)
    (c i : Nat) (h : (c, i) ∈ (handleCols cfg st c0 vs).invoked) :
    (c, i) ∈ st.invoked ∨ (st.possibleTypes.getD c 0).testBit i = true := by
  induction vs generalizing st c0 with
  | nil => exact Or.inl (by simpa [handleCols] using h)
  | cons v rest ih =>
    rw [handleCols] at h
    rcases ih (handleCol cfg st c0 v) (c0 + 1) h with h2 | h2
    · rcases handleCol_invoked cfg st c0 v c i h2 with h3 | ⟨hc, h3⟩
      · exact Or.inl h3
      · subst hc; exact Or.inr h3
    · exact Or.inr (handleCol_subset cfg st c0 v c i h2)

/-- Columns below the window of a row pass gain no invocation records. -/
theorem handleCols_invoked_lower (cfg : Config) (st : Intuitor) (c0 : Nat)
    (vs : List String) (c i : Nat)
    (h : (c, i) ∈ (handleCols cfg st c0 vs).invoked) :
    (c, i) ∈ st.invoked ∨ c0 ≤ c := by
  induction vs generalizing st c0 with
  | nil => exact Or.inl (by simpa [handleCols] using h)
  | cons v rest ih =>
    rw [handleCols] at h
    rcases ih (handleCol cfg st c0 v) (c0 + 1) h with h2 | h2
    · rcases handleCol_invoked cfg st c0 v c i h2 with h3 | ⟨hc, _⟩
      · exact Or.inl h3
      · exact Or.inr (by omega)
    · exact Or.inr (by omega)

/-- A column whose value is empty (with null detection on) gains no
invocation record in the pass: no detector ran on that value. -/
theorem handleCols_invoked_empty (cfg : Config) (st : Intuitor) (c0 : Nat)
    (vs : List String) (col j : Nat) (hj : j < vs.length) (hcol : col = c0 + j)
    (hemp : vs.get ⟨j, hj⟩ = "" ∧ cfg.notNull) (i : Nat)
    (h : (col, i) ∈ (handleCols cfg st c0 vs).invoked) :
    (col, i) ∈ st.invoked := by
  induction vs generalizing st c0 j with
  | nil => simp at hj
  | cons v rest ih =>
    rw [handleCols] at h
    cases j with
    | zero =>
      have hc : col = c0 := by omega
      subst hc
      simp only [List.get] at hemp
      rcases handleCols_invoked_lower cfg (handleCol cfg st col v) (col + 1) rest col i h
        with h2 | h2
      · unfold handleCol at h2
        rw [if_pos hemp] at h2
        exact h2
      · omega
    | succ j2 =>
      have hne0 : c0 ≠ col := by omega
      have hj2 : j2 < rest.length := by simpa using Nat.lt_of_succ_lt_succ hj
      have h2 := ih (handleCol cfg st c0 v) (c0 + 1) j2 hj2 (by omega) (by simpa using hemp) h
      rcases handleCol_invoked cfg st c0 v col i h2 with h3 | ⟨hc, _⟩
      · exact h3
      · exact absurd hc.symm hne0

/-- With null detection off, a row pass never writes the null flags. -/
theorem handleCols_null_notnull (cfg : Config) (st : Intuitor) (c0 : Nat)
    (vs : List String) (h : cfg.notNull = false) :
    (handleCols cfg st c0 vs).null = st.null := by
  induction vs generalizing st c0 with
  | nil => simp [handleCols]
  | cons v rest ih =>
    rw [handleCols]
    have hstep : (handleCol cfg st c0 v).null = st.null := by
      unfold handleCol
      rw [if_neg (by rw [h]; simp)]
    exact (ih (handleCol cfg st c0 v) (c0 + 1)).trans hstep

/-- The fields `handleRow` shares with the row pass. -/
theorem handleRow_parts (cfg : Config) (st : Intuitor) (r : List String) :
    (handleRow cfg st r).possibleTypes = (handleCols cfg st 0 r).possibleTypes ∧
    (handleRow cfg st r).enums = (handleCols cfg st 0 r).enums ∧
    (handleRow cfg st r).null = (handleCols cfg st 0 r).null ∧
    (handleRow cfg st r).invoked = (handleCols cfg st 0 r).invoked ∧
    (handleRow cfg st r).columnNames = st.columnNames ∧
    (handleRow cfg st r).row = st.row ∧
    (handleRow cfg st r).enumDDL = st.enumDDL ∧
    (handleRow cfg st r).tableDDL = st.tableDDL ∧
    (handleRow cfg st r).processedRows = st.processedRows ++ [r] := by
  have hf := handleCols_fields cfg st 0 r
  exact ⟨rfl, rfl, rfl, rfl, hf.1, hf.2.1, hf.2.2.2.1, hf.2.2.2.2.1,
    by rw [handleRow]; rw [hf.2.2.1]⟩

/-- Fields `handleRow` preserves, and lengths. -/
theorem handleRow_fields (cfg : Config) (st : Intuitor) (r : List String) :
    (handleRow cfg st r).columnNames = st.columnNames ∧
    (handleRow cfg st r).row = st.row ∧
    (handleRow cfg st r).enumDDL = st.enumDDL ∧
    (handleRow cfg st r).tableDDL = st.tableDDL ∧
    (handleRow cfg st r).possibleTypes.length = st.possibleTypes.length ∧
    (handleRow cfg st r).enums.length = st.enums.length ∧
    (handleRow cfg st r).null.length = st.null.length := by
  have hp := handleRow_parts cfg st r
  have hf := handleCols_fields cfg st 0 r
  refine ⟨hp.2.2.2.2.1, hp.2.2.2.2.2.1, hp.2.2.2.2.2.2.1, hp.2.2.2.2.2.2.2.1, ?_, ?_, ?_⟩
  · rw [hp.1]; exact hf.2.2.2.2.2.1
  · rw [hp.2.1]; exact hf.2.2.2.2.2.2.1
  · rw [hp.2.2.1]; exact hf.2.2.2.2.2.2.2

/-! ## Lemmas about the row loop (`intuitLoop`) -/

/-- Fields the row loop preserves in the state it returns, on both the
success and the error path. -/
theorem intuitLoop_fields (cfg : Config) (st : Intuitor) (input : List ReadResult) :
    (intuitLoop cfg st input).1.columnNames = st.columnNames ∧
    (intuitLoop cfg st input).1.enumDDL = st.enumDDL ∧
    (intuitLoop cfg st input).1.tableDDL = st.tableDDL ∧
    (intuitLoop cfg st input).1.possibleTypes.length = st.possibleTypes.length ∧
    (intuitLoop cfg st input).1.enums.length = st.enums.length ∧
    (intuitLoop cfg st input).1.null.length = st.null.length := by
  induction input generalizing st with
  | nil =>
    rw [intuitLoop]
    split <;> exact ⟨rfl, rfl, rfl, rfl, rfl, rfl⟩
  | cons r rest ih =>
    cases r with
    | error e =>
      rw [intuitLoop]
      split <;> exact ⟨rfl, rfl, rfl, rfl, rfl, rfl⟩
    | ok row =>
      rw [intuitLoop]
      split
      · exact ⟨rfl, rfl, rfl, rfl, rfl, rfl⟩
      · split
        · exact ⟨rfl, rfl, rfl, rfl, rfl, rfl⟩
        · have hr := handleRow_fields cfg { st with row := st.row + 1 } row
          have hl := ih (handleRow cfg { st with row := st.row + 1 } row)
          exact ⟨hl.1.trans hr.1, hl.2.1.trans hr.2.2.1, hl.2.2.1.trans hr.2.2.2.1,
            hl.2.2.2.1.trans hr.2.2.2.2.1, hl.2.2.2.2.1.trans hr.2.2.2.2.2.1,
            hl.2.2.2.2.2.trans hr.2.2.2.2.2.2⟩

/-- Monotonicity through the row loop: a possible-set bit set in the
returned state was set in the incoming state. -/
theorem intuitLoop_subset (cfg : Config) (st : Intuitor) (input : List ReadResult)
    (col j : Nat)
    (h : ((intuitLoop cfg st input).1.possibleTypes.getD col 0).testBit j = true) :
    (st.possibleTypes.getD col 0).testBit j = true := by
  induction input generalizing st with
  | nil =>
    rw [intuitLoop] at h
    split at h <;> exact h
  | cons r rest ih =>
    cases r with
    | error e =>
      rw [intuitLoop] at h
      split at h <;> exact h
    | ok row =>
      rw [intuitLoop] at h
      split at h
      · exact h
      · split at h
        · exact h
        · have h2 := ih (handleRow cfg { st with row := st.row + 1 } row) h
          rw [(handleRow_parts cfg { st with row := st.row + 1 } row).1] at h2
          exact handleCols_subset cfg { st with row := st.row + 1 } 0 row col j h2

/-- A bit whose handler always accepts survives the whole row loop, at
every column. -/
theorem intuitLoop_keep (cfg : Config) (st : Intuitor) (input : List ReadResult)
    (col k : Nat)
    (hcatch : ∀ (hlt : k < cfg.types.length) (v2 : String) (e2 : List String),
      ((cfg.types.get ⟨k, hlt⟩).handle cfg.enumLength cfg.enumCount v2 e2).1 = true) :
    ((intuitLoop cfg st input).1.possibleTypes.getD col 0).testBit k =
      (st.possibleTypes.getD col 0).testBit k := by
  induction input generalizing st with
  | nil =>
    rw [intuitLoop]
    split <;> rfl
  | cons r rest ih =>
    cases r with
    | error e =>
      rw [intuitLoop]
      split <;> rfl
    | ok row =>
      rw [intuitLoop]
      split
      · rfl
      · split
        · rfl
        · rw [ih (handleRow cfg { st with row := st.row + 1 } row)]
          rw [(handleRow_parts cfg { st with row := st.row + 1 } row).1]
          exact handleCols_keep cfg { st with row := st.row + 1 } 0 row col k hcatch

/-- Ghost-log additions through the row loop: an invocation recorded for a
column concerns a type that was still in that column's set when the loop
started. -/
theorem intuitLoop_invoked (cfg : Config) (st : Intuitor) (input : List ReadResult)
    (c i : Nat) (h : (c, i) ∈ (intuitLoop cfg st input).1.invoked) :
    (c, i) ∈ st.invoked ∨ (st.possibleTypes.getD c 0).testBit i = true := by
  induction input generalizing st with
  | nil =>
    rw [intuitLoop] at h
    split at h <;> exact Or.inl h
  | cons r rest ih =>
    cases r with
    | error e =>
      rw [intuitLoop] at h
      split at h <;> exact Or.inl h
    | ok row =>
      rw [intuitLoop] at h
      split at h
      · exact Or.inl h
      · split at h
        · exact Or.inl h
        · rcases ih (handleRow cfg { st with row := st.row + 1 } row) h with h2 | h2
          · rw [(handleRow_parts cfg { st with row := st.row + 1 } row).2.2.2.1] at h2
            rcases handleCols_invoked cfg { st with row := st.row + 1 } 0 row c i h2
              with h3 | h3
            · exact Or.inl h3
            · exact Or.inr h3
          · rw [(handleRow_parts cfg { st with row := st.row + 1 } row).1] at h2
            exact Or.inr (handleCols_subset cfg { st with row := st.row + 1 } 0 row c i h2)

/-- With a zero sample limit, the loop succeeds on input consisting of
well-shaped rows. -/
theorem intuitLoop_complete (cfg : Config) (st : Intuitor) (input : List ReadResult)
    (hs : cfg.sample = 0)
    (h : ∀ r ∈ input, ∃ row, r = Except.ok row ∧ row.length = st.columnNames.length) :
    (intuitLoop cfg st input).2 = none := by
  induction input generalizing st with
  | nil =>
    rw [intuitLoop]
    split <;> rfl
  | cons r rest ih =>
    rcases h r (List.mem_cons_self r rest) with ⟨row, hr, hlen⟩
    subst hr
    rw [intuitLoop]
    rw [if_neg (by rw [hs]; simp)]
    rw [if_neg (by omega)]
    refine ih (handleRow cfg { st with row := st.row + 1 } row) ?_
    intro r2 hm
    rcases h r2 (List.mem_cons_of_mem _ hm) with ⟨row2, hr2, hlen2⟩
    exact ⟨row2, hr2,
      by rw [(handleRow_fields cfg { st with row := st.row + 1 } row).1]; exact hlen2⟩

/-- Conversely, with a zero sample limit a successful loop run certifies
that every element of the input was a well-shaped row: any read error or
any row of the wrong width would have aborted the run. -/
theorem intuitLoop_all_ok (cfg : Config) (st : Intuitor) (input : List ReadResult)
    (hs : cfg.sample = 0) (h : (intuitLoop cfg st input).2 = none) :
    ∀ r ∈ input, ∃ row, r = Except.ok row ∧ row.length = st.columnNames.length := by
  induction input generalizing st with
  | nil => intro r hm; simp at hm
  | cons r0 rest ih =>
    intro r hm
    cases r0 with
    | error e =>
      rw [intuitLoop] at h
      rw [if_neg (by rw [hs]; simp)] at h
      exact absurd h (by simp)
    | ok row =>
      rw [intuitLoop] at h
      rw [if_neg (by rw [hs]; simp)] at h
      by_cases hlen : row.length = st.columnNames.length
      · rw [if_neg (by omega)] at h
        rcases List.mem_cons.mp hm with hm | hm
        · exact ⟨row, by rw [hm], hlen⟩
        · have := ih (handleRow cfg { st with row := st.row + 1 } row) h r hm
          rcases this with ⟨row2, hr2, hlen2⟩
          exact ⟨row2, hr2,
            by rw [(handleRow_fields cfg { st with row := st.row + 1 } row).1] at hlen2
               exact hlen2⟩
      · rw [if_pos (by omega)] at h
        exact absurd h (by simp)

/-- With null detection off, the loop never writes the null flags. -/
theorem intuitLoop_null (cfg : Config) (st : Intuitor) (input : List ReadResult)
    (h : cfg.notNull = false) :
    (intuitLoop cfg st input).1.null = st.null := by
  induction input generalizing st with
  | nil =>
    rw [intuitLoop]
    split <;> rfl
  | cons r rest ih =>
    cases r with
    | error e =>
      rw [intuitLoop]
      split <;> rfl
    | ok row =>
      rw [intuitLoop]
      split
      · rfl
      · split
        · rfl
        · rw [ih (handleRow cfg { st with row := st.row + 1 } row)]
          rw [(handleRow_parts cfg { st with row := st.row + 1 } row).2.2.1]
          exact handleCols_null_notnull cfg { st with row := st.row + 1 } 0 row h

/-- Row accounting of the loop under a positive sample limit `S`: with the
input consisting of well-shaped rows, the loop hands exactly
`min (S - row + 1) (#input)` further rows to `handleRow` when the counter
`row` has not yet passed `S`, and none otherwise. -/
theorem intuitLoop_count (cfg : Config) (st : Intuitor) (S : Nat)
    (hs : cfg.sample = (S : Int)) (hpos : 0 < S) (rows : List (List String))
    (hlen : ∀ d ∈ rows, d.length = st.columnNames.length) :
    (intuitLoop cfg st (rows.map Except.ok)).1.processedRows.length =
      st.processedRows.length +
        (if st.row ≤ S then min (S - st.row + 1) rows.length else 0) := by
  induction rows generalizing st with
  | nil =>
    rw [List.map_nil, intuitLoop]
    by_cases hgt : st.row > S
    · have hcond : cfg.sample ≠ 0 ∧ (st.row : Int) > cfg.sample :=
        ⟨by rw [hs]; exact_mod_cast Nat.pos_iff_ne_zero.mp hpos,
         by rw [hs]; exact_mod_cast hgt⟩
      rw [if_pos hcond, if_neg (by omega)]
      simp
    · have hcond : ¬(cfg.sample ≠ 0 ∧ (st.row : Int) > cfg.sample) := by
        rw [hs]
        intro hc
        exact hgt (by exact_mod_cast hc.2)
      rw [if_neg hcond]
      simp [if_pos (by omega : st.row ≤ S)]
  | cons d rest ih =>
    rw [List.map_cons, intuitLoop]
    by_cases hgt : st.row > S
    · have hcond : cfg.sample ≠ 0 ∧ (st.row : Int) > cfg.sample :=
        ⟨by rw [hs]; exact_mod_cast Nat.pos_iff_ne_zero.mp hpos,
         by rw [hs]; exact_mod_cast hgt⟩
      rw [if_pos hcond, if_neg (by omega)]
      simp
    · have hcond : ¬(cfg.sample ≠ 0 ∧ (st.row : Int) > cfg.sample) := by
        rw [hs]
        intro hc
        exact hgt (by exact_mod_cast hc.2)
      rw [if_neg hcond]
      rw [if_neg (by have := hlen d (List.mem_cons_self d rest); omega)]
      have hrw := handleRow_parts cfg { st with row := st.row + 1 } d
      have hfw := handleRow_fields cfg { st with row := st.row + 1 } d
      have hrec := ih (handleRow cfg { st with row := st.row + 1 } d)
        (by intro d2 hm
            rw [hfw.1]
            exact hlen d2 (List.mem_cons_of_mem _ hm))
      have hp1 : ({ st with row := st.row + 1 } : Intuitor).processedRows = st.processedRows := rfl
      have hr1 : ({ st with row := st.row + 1 } : Intuitor).row = st.row + 1 := rfl
      rw [hrw.2.2.2.2.2.2.2.2, hfw.2.1, hp1, hr1] at hrec
      rw [hrec]
      simp only [List.length_append, List.length_cons, List.length_nil]
      split_ifs <;> omega

/-! ## Lemmas about the initial possible set, resolution and enum patching -/

/-- Accumulated bits are never dropped by the mask fold. -/
theorem allPossibleAux_mono (ec : Int) (ex : List String) (types : List Ty)
    (i acc j : Nat) (h : acc.testBit j = true) :
    (allPossibleAux ec ex types i acc).testBit j = true := by
  induction types generalizing i acc with
  | nil => simpa [allPossibleAux] using h
  | cons tp rest ih =>
    rw [allPossibleAux]
    split
    · exact ih (i + 1) acc h
    · exact ih (i + 1) _ (by rw [Nat.testBit_lor, h]; rfl)

/-- An enabled, non-excluded type's flag is in the initial mask. -/
theorem allPossibleAux_active (ec : Int) (ex : List String) (types : List Ty)
    (i acc k : Nat) (hk : k < types.length)
    (hact : ¬(((types.get ⟨k, hk⟩).name = "enum" ∧ ec = 0) ∨ (types.get ⟨k, hk⟩).name ∈ ex)) :
    (allPossibleAux ec ex types i acc).testBit (i + k) = true := by
  induction types generalizing i acc k with
  | nil => simp at hk
  | cons tp rest ih =>
    rw [allPossibleAux]
    cases k with
    | zero =>
      simp only [List.get] at hact
      rw [if_neg hact]
      refine allPossibleAux_mono ec ex rest (i + 1) _ (i + 0) ?_
      rw [Nat.testBit_lor, Nat.add_zero, Nat.testBit_two_pow_self]
      cases acc.testBit i <;> rfl
    | succ k2 =>
      have hk2 : k2 < rest.length := by simpa using Nat.lt_of_succ_lt_succ hk
      have harith : i + 1 + k2 = i + (k2 + 1) := by omega
      split
      · have := ih (i + 1) acc k2 hk2 (by simpa using hact)
        rwa [harith] at this
      · have := ih (i + 1) (acc ||| 2 ^ i) k2 hk2 (by simpa using hact)
        rwa [harith] at this

/-- Bits above the window of the mask fold stay clear. -/
theorem allPossibleAux_out (ec : Int) (ex : List String) (types : List Ty)
    (i acc j : Nat) (hj : i + types.length ≤ j) (h : acc.testBit j = false) :
    (allPossibleAux ec ex types i acc).testBit j = false := by
  induction types generalizing i acc with
  | nil => simpa [allPossibleAux] using h
  | cons tp rest ih =>
    rw [allPossibleAux]
    simp only [List.length_cons] at hj
    split
    · exact ih (i + 1) acc (by omega) h
    · refine ih (i + 1) _ (by omega) ?_
      rw [Nat.testBit_lor, h, Nat.testBit_two_pow_of_ne (by omega)]
      rfl

/-- If some type's flag is still in the possible set, resolution returns
the name of a catalog member. -/
theorem resolveAux_mem (types : List Ty) (i p : Nat)
    (h : ∃ k, ∃ (_ : k < types.length), p.testBit (i + k) = true) :
    resolveAux types i p ∈ types.map Ty.name := by
  induction types generalizing i with
  | nil =>
    rcases h with ⟨k, hk, _⟩
    simp at hk
  | cons tp rest ih =>
    rw [resolveAux]
    cases hb : p.testBit i with
    | true => simp
    | false =>
      simp only [hb, Bool.false_eq_true, if_false]
      rcases h with ⟨k, hk, hbit⟩
      cases k with
      | zero => rw [Nat.add_zero] at hbit; rw [hb] at hbit; exact absurd hbit (by simp)
      | succ k2 =>
        have hk2 : k2 < rest.length := by simpa using Nat.lt_of_succ_lt_succ hk
        have hmem := ih (i + 1) ⟨k2, hk2, by rwa [show i + 1 + k2 = i + (k2 + 1) by omega]⟩
        simp only [List.map_cons, List.mem_cons]
        exact Or.inr hmem

/-- Resolution cannot return a name all of whose catalog positions have
been eliminated from the possible set. -/
theorem resolveAux_ne (types : List Ty) (i p : Nat) (nm : String) (hnm : nm ≠ "")
    (h : ∀ k (hk : k < types.length),
      (types.get ⟨k, hk⟩).name = nm → p.testBit (i + k) = false) :
    resolveAux types i p ≠ nm := by
  induction types generalizing i with
  | nil => exact fun he => hnm he.symm
  | cons tp rest ih =>
    rw [resolveAux]
    cases hb : p.testBit i with
    | true =>
      simp only [if_true]
      intro he
      have := h 0 (by simp) (by simpa using he)
      rw [Nat.add_zero] at this
      rw [hb] at this
      exact absurd this (by simp)
    | false =>
      simp only [hb, Bool.false_eq_true, if_false]
      refine ih (i + 1) ?_
      intro k hk hname
      have := h (k + 1) (by simpa using Nat.succ_lt_succ hk) (by simpa using hname)
      rwa [show i + (k + 1) = i + 1 + k by omega] at this

/-- Enum patching preserves the number of columns. -/
theorem patchEnums_length (names : List String) (enums : List (List String))
    (cts : List String) (c0 : Nat) :
    (patchEnums names enums cts c0).2.length = cts.length := by
  induction cts generalizing c0 with
  | nil => simp [patchEnums]
  | cons ct rest ih =>
    rw [patchEnums]
    split <;> simp [ih (c0 + 1)]

/-- Enum patching acts columnwise: an `enum` column is renamed to the
column's enum type, every other column keeps its resolved name. -/
theorem patchEnums_getD (names : List String) (enums : List (List String))
    (cts : List String) (c0 c : Nat) (hc : c < cts.length) :
    (patchEnums names enums cts c0).2.getD c "" =
      (if cts.getD c "" = "enum" then names.getD (c0 + c) "" ++ "_enum"
       else cts.getD c "") := by
  induction cts generalizing c0 c with
  | nil => simp at hc
  | cons ct rest ih =>
    rw [patchEnums]
    cases c with
    | zero =>
      split
      · simp_all [List.getD]
      · simp_all [List.getD]
    | succ c2 =>
      have hc2 : c2 < rest.length := by simpa using Nat.lt_of_succ_lt_succ hc
      have harith : c0 + 1 + c2 = c0 + (c2 + 1) := by omega
      have := ih (c0 + 1) c2 hc2
      rw [harith] at this
      split <;> simpa [List.getD] using this

/-- Fields `finish` does not write. -/
theorem finish_fields (cfg : Config) (kw : String → Bool) (st : Intuitor) :
    (finish cfg kw st).columnNames = st.columnNames ∧
    (finish cfg kw st).possibleTypes = st.possibleTypes ∧
    (finish cfg kw st).enums = st.enums ∧
    (finish cfg kw st).null = st.null ∧
    (finish cfg kw st).processedRows = st.processedRows ∧
    (finish cfg kw st).invoked = st.invoked ∧
    (finish cfg kw st).row = st.row :=
  ⟨rfl, rfl, rfl, rfl, rfl, rfl, rfl⟩

/-- The resolved (and enum-patched) type of one column, read off `finish`. -/
theorem finish_columnTypes (cfg : Config) (kw : String → Bool) (st : Intuitor)
    (c : Nat) (hc : c < st.columnNames.length) :
    (finish cfg kw st).columnTypes.getD c "" =
      (if resolveOne cfg.types (st.possibleTypes.getD c 0) = "enum"
       then st.columnNames.getD c "" ++ "_enum"
       else resolveOne cfg.types (st.possibleTypes.getD c 0)) := by
  unfold finish
  have hclen : c < ((List.range st.columnNames.length).map
      (fun col => resolveOne cfg.types (st.possibleTypes.getD col 0))).length := by
    simpa using hc
  have := patchEnums_getD st.columnNames st.enums
    ((List.range st.columnNames.length).map
      (fun col => resolveOne cfg.types (st.possibleTypes.getD col 0))) 0 c hclen
  rw [getD_range_map _ _ _ _ hc] at this
  simpa using this

/-- A name with the `_enum` suffix is never the empty string. -/
theorem enum_name_ne_empty (s : String) : s ++ "_enum" ≠ "" := by
  intro h
  have hlen := congrArg String.length h
  rw [String.length_append] at hlen
  have h5 : ("_enum" : String).length = 5 := rfl
  rw [h5] at hlen
  simp at hlen

/-! ## Structure of a successful run -/

theorem intuitBody_none (cfg : Config) (kw : String → Bool) (st : Intuitor)
    (input : List ReadResult) (h : (intuitBody cfg kw st input).2 = none) :
    ∃ firstrow rest, input = Except.ok firstrow :: rest ∧
      firstrow.length = (bodyNames cfg st firstrow).length ∧
      (intuitLoop cfg (handleRow cfg (initState cfg st (bodyNames cfg st firstrow)) firstrow)
        rest).2 = none ∧
      (intuitBody cfg kw st input).1 =
        finish cfg kw
          (intuitLoop cfg
            (handleRow cfg (initState cfg st (bodyNames cfg st firstrow)) firstrow) rest).1 := by
  cases input with
  | nil => exact absurd h (by rw [intuitBody]; simp)
  | cons r rest =>
    cases r with
    | error e => exact absurd h (by rw [intuitBody]; simp)
    | ok firstrow =>
      rw [intuitBody] at h
      by_cases hlen : firstrow.length = (bodyNames cfg st firstrow).length
      · rw [if_neg (by omega)] at h
        cases hp : intuitLoop cfg
            (handleRow cfg (initState cfg st (bodyNames cfg st firstrow)) firstrow) rest with
        | mk st5 e? =>
          rw [hp] at h
          cases e? with
          | some e => exact absurd h (by simp)
          | none =>
            refine ⟨firstrow, rest, rfl, hlen, by rw [hp], ?_⟩
            rw [intuitBody, if_neg (by omega), hp]
      · rw [if_pos (by omega)] at h
        exact absurd h (by simp)

/-! ## Auxiliary facts for the claims -/

/-- Escaping double quotes never shortens a string. -/
theorem escDouble_length_ge (s : String) : s.length ≤ (escDouble s).length := by
  show s.data.length ≤ (s.data.flatMap (fun c => if c == '"' then ['"', '"'] else [c])).length
  induction s.data with
  | nil => simp
  | cons c cs ih =>
    rw [List.flatMap_cons, List.length_append, List.length_cons]
    split
    · simp only [List.length_cons, List.length_nil]
      omega
    · simp only [List.length_cons, List.length_nil]
      omega

/-- The double-quoted form of a name is never the name itself. -/
theorem quoted_ne_self (s : String) : "\"" ++ escDouble s ++ "\"" ≠ s := by
  intro h
  have hlen := congrArg String.length h
  rw [String.length_append, String.length_append] at hlen
  have h1 : ("\"" : String).length = 1 := rfl
  rw [h1] at hlen
  have := escDouble_length_ge s
  omega

/-- A nonempty string has nonzero UTF-8 byte length. -/
theorem utf8ByteSize_ne_zero (s : String) (h : s ≠ "") : s.utf8ByteSize ≠ 0 := by
  cases s with
  | mk data =>
    cases data with
    | nil => exact absurd rfl h
    | cons c cs =>
      show String.utf8ByteSize.go cs + c.utf8Size ≠ 0
      have := Char.utf8Size_pos c
      omega

/-- A valid enum token is not the empty string. -/
theorem isEnumToken_ne_empty (s : String) (h : isEnumToken s = true) : s ≠ "" := by
  intro he
  rw [he] at h
  exact absurd h (by decide)

/-- Monotonicity through one `handleRow` call (wrapper). -/
theorem handleRow_subset (cfg : Config) (st : Intuitor) (r : List String)
    (col j : Nat)
    (h : ((handleRow cfg st r).possibleTypes.getD col 0).testBit j = true) :
    (st.possibleTypes.getD col 0).testBit j = true := by
  rw [(handleRow_parts cfg st r).1] at h
  exact handleCols_subset cfg st 0 r col j h

/-- Ghost-log additions through one `handleRow` call (wrapper). -/
theorem handleRow_invoked (cfg : Config) (st : Intuitor) (r : List String)
    (c i : Nat) (h : (c, i) ∈ (handleRow cfg st r).invoked) :
    (c, i) ∈ st.invoked ∨ (st.possibleTypes.getD c 0).testBit i = true := by
  rw [(handleRow_parts cfg st r).2.2.2.1] at h
  exact handleCols_invoked cfg st 0 r c i h

/-! ## The claims -/

/-- C7: `QuoteIdent` emits an identifier bare exactly when it matches the
plain-identifier pattern (a lower-case letter followed by lower-case
letters, digits or underscores), and otherwise wraps it in double quotes
doubling internal double quotes; `QuoteName` additionally forces the
quoted form whenever the name is in the reserved-keyword table `kw`, even
when the pattern would allow bare emission, and behaves like `QuoteIdent`
on non-keywords. -/
theorem c7_identifier_quoting (kw : String → Bool) (s : String) :
    (QuoteIdent s = s ↔ plainIdent s = true) ∧
    (plainIdent s = false → QuoteIdent s = "\"" ++ escDouble s ++ "\"") ∧
    (kw s = true → QuoteName kw s = "\"" ++ escDouble s ++ "\"") ∧
    (kw s = false → QuoteName kw s = QuoteIdent s) ∧
    (kw s = true → QuoteName kw s ≠ s) := by
  refine ⟨?_, ?_, ?_, ?_, ?_⟩
  · constructor
    · intro h
      cases hp : plainIdent s with
      | true => rfl
      | false =>
        unfold QuoteIdent at h
        rw [hp] at h
        simp only [Bool.false_eq_true, if_false] at h
        exact absurd h (quoted_ne_self s)
    · intro h
      unfold QuoteIdent
      rw [h]
      simp
  · intro h
    unfold QuoteIdent
    rw [h]
    simp
  · intro h
    unfold QuoteName
    rw [h]
    simp
  · intro h
    unfold QuoteName QuoteIdent
    rw [h]
    simp
  · intro h
    unfold QuoteName
    rw [h]
    simpa using quoted_ne_self s

/-- Witness for C7 at the reserved word `order`: it matches the plain
pattern and `QuoteIdent` leaves it bare, yet `QuoteName` quotes it when
the keyword table contains it, and agrees with `QuoteIdent` when not. -/
theorem c7_identifier_quoting_witness :
    (QuoteIdent "order" = "order" ↔ plainIdent "order" = true) ∧
    QuoteName (fun t => t == "order") "order" = "\"" ++ escDouble "order" ++ "\"" ∧
    QuoteName (fun t => t == "order") "order" ≠ "order" ∧
    QuoteName (fun _ => false) "order" = QuoteIdent "order" :=
  ⟨(c7_identifier_quoting (fun t => t == "order") "order").1,
   (c7_identifier_quoting (fun t => t == "order") "order").2.2.1 (by decide),
   (c7_identifier_quoting (fun t => t == "order") "order").2.2.2.2 (by decide),
   (c7_identifier_quoting (fun _ => false) "order").2.2.2.1 rfl⟩

/-- C4: evaluation of the network detectors at `10.0.0.0/8`, a value that
is not a bare IP literal and is CIDR notation whose host bits right of the
prefix length are all zero (the network address `ipnet.IP` is exactly the
four address octets).  The claim (and the source's own inline comment) say
the `inet` detector rejects such a value; the code accepts it, because it
tests only that `net.ParseCIDR` succeeded.  The `cidr` detector also
rejects it: the address `net.ParseCIDR` returns is in Go's 16-byte form
while the masked network is 4 bytes, so `bytes.Compare` never sees them
equal for IPv4. -/
theorem c4_inet_zero_host_bits :
    inetIsa "10.0.0.0/8" = true ∧
    goParseIPOk "10.0.0.0/8" = false ∧
    goParseCIDR "10.0.0.0/8" = some (v4InV6Prefix ++ [10, 0, 0, 0], [10, 0, 0, 0]) ∧
    cidrIsa "10.0.0.0/8" = false := by
  decide

/-- C8: the inference run is a pure function of the configuration, the
keyword table and the row sequence: two runs over equal inputs resolve
equal column types (and equal error outcomes). -/
theorem c8_deterministic (cfg1 cfg2 : Config) (kw1 kw2 : String → Bool)
    (in1 in2 : List ReadResult) (hc : cfg1 = cfg2) (hk : kw1 = kw2) (hi : in1 = in2) :
    (Intuit cfg1 kw1 in1).1.columnTypes = (Intuit cfg2 kw2 in2).1.columnTypes ∧
    (Intuit cfg1 kw1 in1).2 = (Intuit cfg2 kw2 in2).2 := by
  subst hc
  subst hk
  subst hi
  exact ⟨rfl, rfl⟩

/-- Witness for C8: two identical runs over a two-row input. -/
theorem c8_deterministic_witness :
    newConfig = newConfig ∧
    (Intuit newConfig (fun _ => false) [Except.ok ["a"], Except.ok ["x"]]).1.columnTypes =
      (Intuit newConfig (fun _ => false) [Except.ok ["a"], Except.ok ["x"]]).1.columnTypes ∧
    (Intuit newConfig (fun _ => false) [Except.ok ["a"], Except.ok ["x"]]).2 =
      (Intuit newConfig (fun _ => false) [Except.ok ["a"], Except.ok ["x"]]).2 :=
  ⟨rfl, c8_deterministic newConfig newConfig (fun _ => false) (fun _ => false)
    [Except.ok ["a"], Except.ok ["x"]] [Except.ok ["a"], Except.ok ["x"]] rfl rfl rfl⟩

/-- C2: across any sequence of `processRow` calls, a column's possible-type
set only shrinks (a bit set afterwards was set before), a type once
removed never returns, and the detector of a type already eliminated for a
column is never invoked again for that column (no new ghost-log entry). -/
theorem c2_monotone_narrowing (cfg : Config) (st : Intuitor)
    (rows : List (List String)) (col i j : Nat)
    (hi : (st.possibleTypes.getD col 0).testBit i = false) :
    (((processRows cfg st rows).possibleTypes.getD col 0).testBit j = true →
      (st.possibleTypes.getD col 0).testBit j = true) ∧
    ((processRows cfg st rows).possibleTypes.getD col 0).testBit i = false ∧
    ((col, i) ∈ (processRows cfg st rows).invoked → (col, i) ∈ st.invoked) := by
  induction rows generalizing st with
  | nil => exact ⟨fun h => h, hi, fun h => h⟩
  | cons r rs ih =>
    have hstep : processRows cfg st (r :: rs) = processRows cfg (handleRow cfg st r) rs := rfl
    rw [hstep]
    have hi2 : ((handleRow cfg st r).possibleTypes.getD col 0).testBit i = false := by
      cases hb : ((handleRow cfg st r).possibleTypes.getD col 0).testBit i with
      | true => rw [handleRow_subset cfg st r col i hb] at hi; exact hi
      | false => rfl
    have IH := ih (handleRow cfg st r) hi2
    refine ⟨fun h => handleRow_subset cfg st r col j (IH.1 h), IH.2.1, fun h => ?_⟩
    rcases handleRow_invoked cfg st r col i (IH.2.2 h) with h2 | h2
    · exact h2
    · rw [h2] at hi
      exact absurd hi (by simp)

/-- Witness for C2: a one-row run over a column whose set holds only bit 2;
bit 0 is absent at the start, stays absent, and gains no invocation. -/
theorem c2_monotone_narrowing_witness :
    ((oneColState 4 : Intuitor).possibleTypes.getD 0 0).testBit 0 = false ∧
    ((((processRows newConfig (oneColState 4) [["x"]]).possibleTypes.getD 0 0).testBit 2 = true →
        ((oneColState 4 : Intuitor).possibleTypes.getD 0 0).testBit 2 = true) ∧
      ((processRows newConfig (oneColState 4) [["x"]]).possibleTypes.getD 0 0).testBit 0 = false ∧
      ((0, 0) ∈ (processRows newConfig (oneColState 4) [["x"]]).invoked →
        (0, 0) ∈ (oneColState 4 : Intuitor).invoked)) :=
  ⟨by decide,
   c2_monotone_narrowing newConfig
     (oneColState 4) [["x"]] 0 0 2 (by decide)⟩

/-- C5: with null detection enabled, an empty-string field sets its
column's nullable flag, leaves the column's possible set and enum tracker
untouched, and invokes no detector for that value (no ghost-log entry for
the column). -/
theorem c5_empty_field_nullable (cfg : Config) (st : Intuitor) (row : List String)
    (col i : Nat) (hnn : cfg.notNull = true) (hc : col < row.length)
    (hln : col < st.null.length) (hv : row.getD col "" = "") :
    (handleRow cfg st row).null.getD col false = true ∧
    (handleRow cfg st row).possibleTypes.getD col 0 = st.possibleTypes.getD col 0 ∧
    (handleRow cfg st row).enums.getD col [] = st.enums.getD col [] ∧
    ((col, i) ∈ (handleRow cfg st row).invoked → (col, i) ∈ st.invoked) := by
  have hget : row.get ⟨col, hc⟩ = "" := by
    have := List.getD_eq_getElem row "" hc
    rw [hv] at this
    exact this.symm
  have hemp : row.get ⟨col, hc⟩ = "" ∧ cfg.notNull := ⟨hget, hnn⟩
  have hparts := handleRow_parts cfg st row
  have he := handleCols_empty_at cfg st 0 row col col hc (by omega) hln hemp
  refine ⟨?_, ?_, ?_, ?_⟩
  · rw [hparts.2.2.1]; exact he.2.2
  · rw [hparts.1]; exact he.1
  · rw [hparts.2.1]; exact he.2.1
  · intro h
    rw [hparts.2.2.2.1] at h
    exact handleCols_invoked_empty cfg st 0 row col col hc (by omega) hemp i h

/-- Witness for C5: an empty field in a one-column row. -/
theorem c5_empty_field_nullable_witness :
    ((notNullConfig : Config).notNull = true ∧
      0 < ([""] : List String).length ∧
      0 < (oneColState 7 : Intuitor).null.length ∧
      ([""] : List String).getD 0 "" = "") ∧
    ((handleRow notNullConfig
        (oneColState 7) [""]).null.getD 0 false = true ∧
      (handleRow notNullConfig
        (oneColState 7) [""]).possibleTypes.getD 0 0 =
        (oneColState 7 : Intuitor).possibleTypes.getD 0 0 ∧
      (handleRow notNullConfig
        (oneColState 7) [""]).enums.getD 0 [] =
        (oneColState 7 : Intuitor).enums.getD 0 [] ∧
      ((0, 0) ∈ (handleRow notNullConfig
        (oneColState 7) [""]).invoked →
        (0, 0) ∈ (oneColState 7 : Intuitor).invoked)) :=
  ⟨⟨rfl, by decide, by decide, by decide⟩,
   c5_empty_field_nullable notNullConfig
     (oneColState 7) [""] 0 0 rfl (by decide) (by decide) (by decide)⟩

/-- A failed `intuitBody` run leaves the DDL fields as they came in
(empty, in every caller). -/
theorem intuitBody_err (cfg : Config) (kw : String → Bool) (st : Intuitor)
    (input : List ReadResult) (e : String)
    (hD1 : st.enumDDL = "") (hD2 : st.tableDDL = "")
    (h : (intuitBody cfg kw st input).2 = some e) :
    (intuitBody cfg kw st input).1.enumDDL = "" ∧
    (intuitBody cfg kw st input).1.tableDDL = "" := by
  cases input with
  | nil =>
    rw [intuitBody]
    exact ⟨hD1, hD2⟩
  | cons r rest =>
    cases r with
    | error e2 =>
      rw [intuitBody]
      exact ⟨hD1, hD2⟩
    | ok firstrow =>
      rw [intuitBody] at h ⊢
      by_cases hlen : firstrow.length = (bodyNames cfg st firstrow).length
      · rw [if_neg (by omega)] at h ⊢
        cases hp : intuitLoop cfg
            (handleRow cfg (initState cfg st (bodyNames cfg st firstrow)) firstrow) rest with
        | mk st5 e? =>
          rw [hp] at h
          cases e? with
          | none => exact absurd h (by simp)
          | some e2 =>
            have hl := intuitLoop_fields cfg
              (handleRow cfg (initState cfg st (bodyNames cfg st firstrow)) firstrow) rest
            rw [hp] at hl
            have hr := handleRow_fields cfg (initState cfg st (bodyNames cfg st firstrow)) firstrow
            constructor
            · show st5.enumDDL = ""
              rw [hl.2.1, hr.2.2.1]
              exact hD1
            · show st5.tableDDL = ""
              rw [hl.2.2.1, hr.2.2.2.1]
              exact hD2
      · rw [if_pos (by omega)] at h ⊢
        exact ⟨hD1, hD2⟩

/-- C6: a row of the wrong width (including a first data row disagreeing
with the header) or a failing read aborts the run with an error, and on
every error path no DDL has been emitted: the error outcome comes with
empty `EnumDDL` and `TableDDL`, and a run that ends without error
certifies that every remaining read delivered a well-shaped row. -/
theorem c6_errors_abort (cfg0 : Config) (kw : String → Bool) (input : List ReadResult)
    (e : String) (hdr fr : List String) (rest : List ReadResult) (r : ReadResult) :
    ((Intuit cfg0 kw input).2 = some e →
      (Intuit cfg0 kw input).1.enumDDL = "" ∧ (Intuit cfg0 kw input).1.tableDDL = "") ∧
    (cfg0.readHeader = true → hdr ≠ [] → fr.length ≠ hdr.length →
      (Intuit cfg0 kw (Except.ok hdr :: Except.ok fr :: rest)).2.isSome = true) ∧
    (cfg0.readHeader = true → cfg0.sample = 0 → hdr ≠ [] →
      (Intuit cfg0 kw (Except.ok hdr :: Except.ok fr :: rest)).2 = none →
      r ∈ rest → ∃ row, r = Except.ok row ∧ row.length = hdr.length) := by
  have hnlen : (if (tidy cfg0).snakeCase then hdr.map snake else hdr).length = hdr.length := by
    split
    · exact List.length_map hdr snake
    · rfl
  have hcn : ({ Intuitor.start with row := 1, columnNames := if (tidy cfg0).snakeCase then hdr.map snake else hdr } :
        Intuitor).columnNames = (if (tidy cfg0).snakeCase then hdr.map snake else hdr) := rfl
  refine ⟨?_, ?_, ?_⟩
  · intro h
    rw [Intuit.eq_def] at h ⊢
    by_cases hrh : (tidy cfg0).readHeader = true
    · rw [if_pos hrh] at h ⊢
      cases input with
      | nil => exact ⟨rfl, rfl⟩
      | cons r0 rest0 =>
        cases r0 with
        | error e0 => exact ⟨rfl, rfl⟩
        | ok hdr0 => exact intuitBody_err (tidy cfg0) kw _ rest0 e rfl rfl h
    · rw [if_neg hrh] at h ⊢
      exact intuitBody_err (tidy cfg0) kw Intuitor.start input e rfl rfl h
  · intro hrh hhdr hmm
    have hEq : Intuit cfg0 kw (Except.ok hdr :: Except.ok fr :: rest) =
        intuitBody (tidy cfg0) kw
          { Intuitor.start with row := 1, columnNames := if (tidy cfg0).snakeCase then hdr.map snake else hdr }
          (Except.ok fr :: rest) := by
      rw [Intuit.eq_def, if_pos (show (tidy cfg0).readHeader = true from hrh)]
    have hbn : bodyNames (tidy cfg0)
        { Intuitor.start with row := 1, columnNames := if (tidy cfg0).snakeCase then hdr.map snake else hdr } fr =
        (if (tidy cfg0).snakeCase then hdr.map snake else hdr) := by
      rw [bodyNames, hcn, if_neg ?_]
      rw [hnlen]
      intro hz
      exact hhdr (List.length_eq_zero.mp hz)
    rw [hEq, intuitBody, if_pos ?_]
    · rfl
    · rw [hbn, hnlen]
      exact hmm
  · intro hrh hs hhdr hnone hr
    have hEq : Intuit cfg0 kw (Except.ok hdr :: Except.ok fr :: rest) =
        intuitBody (tidy cfg0) kw
          { Intuitor.start with row := 1, columnNames := if (tidy cfg0).snakeCase then hdr.map snake else hdr }
          (Except.ok fr :: rest) := by
      rw [Intuit.eq_def, if_pos (show (tidy cfg0).readHeader = true from hrh)]
    rw [hEq] at hnone
    rcases intuitBody_none (tidy cfg0) kw _ _ hnone with ⟨fr2, rest2, heq, hlen2, hloop, _⟩
    have hfr : fr2 = fr := by
      have h2 := congrArg (fun l => List.headD l (Except.ok [])) heq
      simpa using h2.symm
    have hrest : rest2 = rest := by
      have h2 := congrArg List.tail heq
      simpa using h2.symm
    rw [hfr, hrest] at hloop
    have hbn : bodyNames (tidy cfg0)
        { Intuitor.start with row := 1, columnNames := if (tidy cfg0).snakeCase then hdr.map snake else hdr } fr =
        (if (tidy cfg0).snakeCase then hdr.map snake else hdr) := by
      rw [bodyNames, hcn, if_neg ?_]
      rw [hnlen]
      intro hz
      exact hhdr (List.length_eq_zero.mp hz)
    have hall := intuitLoop_all_ok (tidy cfg0) _ rest
      (show (tidy cfg0).sample = 0 from hs) hloop r hr
    rcases hall with ⟨row, hrow, hrowlen⟩
    refine ⟨row, hrow, ?_⟩
    rw [(handleRow_fields _ _ _).1] at hrowlen
    rw [show (initState (tidy cfg0)
        { Intuitor.start with row := 1, columnNames := if (tidy cfg0).snakeCase then hdr.map snake else hdr }
        (bodyNames (tidy cfg0)
          { Intuitor.start with row := 1, columnNames := if (tidy cfg0).snakeCase then hdr.map snake else hdr } fr)).columnNames =
        bodyNames (tidy cfg0)
          { Intuitor.start with row := 1, columnNames := if (tidy cfg0).snakeCase then hdr.map snake else hdr } fr
      from rfl] at hrowlen
    rw [hbn, hnlen] at hrowlen
    exact hrowlen

/-- Witness for C6: a mismatched first row errors out with both DDL fields
empty, and a clean two-row run certifies its remaining read. -/
theorem c6_errors_abort_witness :
    ((Intuit notNullConfig (fun _ => false) [Except.ok ["a", "b"], Except.ok ["1"]]).2 =
        some "Header length does not match length of first row" ∧
      (Intuit notNullConfig (fun _ => false)
          [Except.ok ["a", "b"], Except.ok ["1"]]).1.enumDDL = "" ∧
      (Intuit notNullConfig (fun _ => false)
          [Except.ok ["a", "b"], Except.ok ["1"]]).1.tableDDL = "") ∧
    (Intuit notNullConfig (fun _ => false)
        [Except.ok ["a", "b"], Except.ok ["1"]]).2.isSome = true ∧
    (Except.ok ["y"] ∈ [(Except.ok ["y"] : ReadResult)] →
      ∃ row, (Except.ok ["y"] : ReadResult) = Except.ok row ∧ row.length = ["a"].length) := by
  refine ⟨⟨by decide, ?_⟩, ?_, ?_⟩
  · exact (c6_errors_abort notNullConfig (fun _ => false)
      [Except.ok ["a", "b"], Except.ok ["1"]]
      "Header length does not match length of first row" ["a", "b"] ["1"] []
      (Except.ok [])).1 (by decide)
  · exact (c6_errors_abort notNullConfig (fun _ => false)
      [Except.ok ["a", "b"], Except.ok ["1"]]
      "" ["a", "b"] ["1"] [] (Except.ok [])).2.1 rfl (by decide) (by decide)
  · intro hm
    exact (c6_errors_abort notNullConfig (fun _ => false) []
      "" ["a"] ["x"] [Except.ok ["y"]] (Except.ok ["y"])).2.2 rfl rfl (by decide)
      (by decide) hm

/-- C9 counterexample: with a header present and sample limit 2, the run
processes 2 data rows, not max(1, 2-1) = 1 as the claim computes. -/
theorem c9_sample_counterexample :
    ¬((Intuit { newConfig with sample := 2 } (fun _ => false)
        (Except.ok ["h"] :: [["x"], ["y"], ["z"]].map Except.ok)).1.processedRows.length =
      max 1 (2 - 1)) := by
  decide

/-- C9 (amended): with a header present and a nonzero sample limit `S`,
the row counter counts every read including the header, reading stops once
the counter exceeds `S` before the next read, and the first data row is
always processed regardless of `S`; consequently exactly `max 1 S` data
rows are processed when the input has that many. -/
theorem c9_sample_row_count (cfg0 : Config) (kw : String → Bool) (S : Nat)
    (hdr : List String) (rows : List (List String))
    (hrh : cfg0.readHeader = true) (hs : cfg0.sample = (S : Int)) (hS : 0 < S)
    (hhdr : hdr ≠ []) (hlen : ∀ d ∈ rows, d.length = hdr.length)
    (hrows : S ≤ rows.length) :
    (Intuit cfg0 kw (Except.ok hdr :: rows.map Except.ok)).1.processedRows.length =
      max 1 S := by
  have hnlen : (if (tidy cfg0).snakeCase then hdr.map snake else hdr).length = hdr.length := by
    split
    · exact List.length_map hdr snake
    · rfl
  have hcn : ({ Intuitor.start with row := 1, columnNames := if (tidy cfg0).snakeCase then hdr.map snake else hdr } :
        Intuitor).columnNames = (if (tidy cfg0).snakeCase then hdr.map snake else hdr) := rfl
  cases rows with
  | nil => simp at hrows; omega
  | cons fr rs =>
    have hEq : Intuit cfg0 kw (Except.ok hdr :: (fr :: rs).map Except.ok) =
        intuitBody (tidy cfg0) kw
          { Intuitor.start with row := 1, columnNames := if (tidy cfg0).snakeCase then hdr.map snake else hdr }
          ((fr :: rs).map Except.ok) := by
      rw [Intuit.eq_def, if_pos (show (tidy cfg0).readHeader = true from hrh)]
    rw [hEq]
    rw [show (fr :: rs).map Except.ok = (Except.ok fr :: rs.map Except.ok :
      List ReadResult) from rfl]
    rw [intuitBody]
    have hbn : bodyNames (tidy cfg0)
        { Intuitor.start with row := 1, columnNames := if (tidy cfg0).snakeCase then hdr.map snake else hdr } fr =
        (if (tidy cfg0).snakeCase then hdr.map snake else hdr) := by
      rw [bodyNames, hcn, if_neg ?_]
      rw [hnlen]
      intro hz
      exact hhdr (List.length_eq_zero.mp hz)
    have hfrlen : fr.length = hdr.length := hlen fr (List.mem_cons_self fr rs)
    rw [if_neg (by rw [hbn, hnlen]; omega)]
    have hst4 := handleRow_fields (tidy cfg0)
      (initState (tidy cfg0)
        { Intuitor.start with row := 1, columnNames := if (tidy cfg0).snakeCase then hdr.map snake else hdr }
        (bodyNames (tidy cfg0)
          { Intuitor.start with row := 1, columnNames := if (tidy cfg0).snakeCase then hdr.map snake else hdr } fr)) fr
    have hst4p := handleRow_parts (tidy cfg0)
      (initState (tidy cfg0)
        { Intuitor.start with row := 1, columnNames := if (tidy cfg0).snakeCase then hdr.map snake else hdr }
        (bodyNames (tidy cfg0)
          { Intuitor.start with row := 1, columnNames := if (tidy cfg0).snakeCase then hdr.map snake else hdr } fr)) fr
    have hcount := intuitLoop_count (tidy cfg0)
      (handleRow (tidy cfg0)
        (initState (tidy cfg0)
          { Intuitor.start with row := 1, columnNames := if (tidy cfg0).snakeCase then hdr.map snake else hdr }
          (bodyNames (tidy cfg0)
            { Intuitor.start with row := 1, columnNames := if (tidy cfg0).snakeCase then hdr.map snake else hdr } fr)) fr)
      S (show (tidy cfg0).sample = (S : Int) from hs) hS rs ?_
    · cases hp : intuitLoop (tidy cfg0)
          (handleRow (tidy cfg0)
            (initState (tidy cfg0)
              { Intuitor.start with row := 1, columnNames := if (tidy cfg0).snakeCase then hdr.map snake else hdr }
              (bodyNames (tidy cfg0)
                { Intuitor.start with row := 1, columnNames := if (tidy cfg0).snakeCase then hdr.map snake else hdr } fr)) fr)
          (rs.map Except.ok) with
      | mk st5 e? =>
        rw [hp] at hcount
        have hgoal : (match (st5, e?) with
            | (st5, some e) => ((st5 : Intuitor), some e)
            | (st5, none) => (finish (tidy cfg0) kw st5, none)).1.processedRows.length =
            st5.processedRows.length := by
          cases e? with
          | none => exact congrArg List.length (finish_fields (tidy cfg0) kw st5).2.2.2.2.1
          | some e2 => rfl
        rw [hgoal, hcount]
        rw [hst4p.2.2.2.2.2.2.2.2, hst4.2.1]
        have hr1 : (initState (tidy cfg0)
            { Intuitor.start with row := 1, columnNames := if (tidy cfg0).snakeCase then hdr.map snake else hdr }
            (bodyNames (tidy cfg0)
              { Intuitor.start with row := 1, columnNames := if (tidy cfg0).snakeCase then hdr.map snake else hdr } fr)).row = 2 := rfl
        have hp1 : (initState (tidy cfg0)
            { Intuitor.start with row := 1, columnNames := if (tidy cfg0).snakeCase then hdr.map snake else hdr }
            (bodyNames (tidy cfg0)
              { Intuitor.start with row := 1, columnNames := if (tidy cfg0).snakeCase then hdr.map snake else hdr } fr)).processedRows = [] := rfl
        rw [hr1, hp1]
        simp only [List.length_append, List.length_cons, List.length_nil]
        have hrslen : rs.length + 1 = (fr :: rs).length := rfl
        split_ifs <;> omega
    · intro d hm
      rw [hst4.1]
      rw [show (initState (tidy cfg0)
          { Intuitor.start with row := 1, columnNames := if (tidy cfg0).snakeCase then hdr.map snake else hdr }
          (bodyNames (tidy cfg0)
            { Intuitor.start with row := 1, columnNames := if (tidy cfg0).snakeCase then hdr.map snake else hdr } fr)).columnNames =
          bodyNames (tidy cfg0)
            { Intuitor.start with row := 1, columnNames := if (tidy cfg0).snakeCase then hdr.map snake else hdr } fr
        from rfl]
      rw [hbn, hnlen]
      exact hlen d (List.mem_cons_of_mem fr hm)

/-- Witness for C9 (amended) at sample limit 2 over three data rows. -/
theorem c9_sample_row_count_witness :
    (({ newConfig with sample := 2 } : Config).readHeader = true ∧
      ({ newConfig with sample := 2 } : Config).sample = ((2 : Nat) : Int) ∧
      0 < 2 ∧ (["h"] : List String) ≠ [] ∧
      (∀ d ∈ [["x"], ["y"], ["z"]], List.length d = ["h"].length) ∧
      2 ≤ ([["x"], ["y"], ["z"]] : List (List String)).length) ∧
    (Intuit { newConfig with sample := 2 } (fun _ => false)
        (Except.ok ["h"] :: [["x"], ["y"], ["z"]].map Except.ok)).1.processedRows.length =
      max 1 2 :=
  ⟨⟨rfl, rfl, by decide, by decide, by decide, by decide⟩,
   c9_sample_row_count { newConfig with sample := 2 } (fun _ => false) 2 ["h"]
     [["x"], ["y"], ["z"]] rfl rfl (by decide) (by decide) (by decide) (by decide)⟩

/-- A bit whose handler always accepts survives one `handleRow` call
(wrapper). -/
theorem handleRow_keep (cfg : Config) (st : Intuitor) (r : List String)
    (col k : Nat)
    (hcatch : ∀ (hlt : k < cfg.types.length) (v2 : String) (e2 : List String),
      ((cfg.types.get ⟨k, hlt⟩).handle cfg.enumLength cfg.enumCount v2 e2).1 = true) :
    ((handleRow cfg st r).possibleTypes.getD col 0).testBit k =
      (st.possibleTypes.getD col 0).testBit k := by
  rw [(handleRow_parts cfg st r).1]
  exact handleCols_keep cfg st 0 r col k hcatch

/-- Resolution after a successful `intuitBody` run, in the presence of a
catch-all type at position `k`: every column's resolved name is a catalog
member, and the emitted column type is never empty. -/
theorem intuitBody_resolves (cfg : Config) (kw : String → Bool) (st : Intuitor)
    (input : List ReadResult) (k : Nat) (hk : k < cfg.types.length)
    (hcatch : ∀ (L C : Int) (v : String) (e2 : List String),
      ((cfg.types.get ⟨k, hk⟩).handle L C v e2).1 = true)
    (hnx : (cfg.types.get ⟨k, hk⟩).name ∉ cfg.exclude)
    (hne : ¬((cfg.types.get ⟨k, hk⟩).name = "enum" ∧ cfg.enumCount = 0))
    (hnames : ∀ tp ∈ cfg.types, tp.name ≠ "")
    (h : (intuitBody cfg kw st input).2 = none)
    (c : Nat) (hc : c < (intuitBody cfg kw st input).1.columnNames.length) :
    resolveOne cfg.types ((intuitBody cfg kw st input).1.possibleTypes.getD c 0) ∈
      cfg.types.map Ty.name ∧
    (intuitBody cfg kw st input).1.columnTypes.getD c "" ≠ "" := by
  rcases intuitBody_none cfg kw st input h with ⟨fr, rest, heq, hlen, hloop, hres⟩
  rw [hres] at hc ⊢
  have hnamesEq : (intuitLoop cfg
      (handleRow cfg (initState cfg st (bodyNames cfg st fr)) fr) rest).1.columnNames =
      bodyNames cfg st fr := by
    rw [(intuitLoop_fields cfg _ rest).1]
    rw [(handleRow_fields cfg _ fr).1]
    rfl
  have hc2 : c < (bodyNames cfg st fr).length := by
    rw [show (finish cfg kw (intuitLoop cfg
        (handleRow cfg (initState cfg st (bodyNames cfg st fr)) fr) rest).1).columnNames =
        (intuitLoop cfg
          (handleRow cfg (initState cfg st (bodyNames cfg st fr)) fr) rest).1.columnNames
      from rfl] at hc
    rwa [hnamesEq] at hc
  have hcatch2 : ∀ (hlt : k < cfg.types.length) (v2 : String) (e2 : List String),
      ((cfg.types.get ⟨k, hlt⟩).handle cfg.enumLength cfg.enumCount v2 e2).1 = true :=
    fun _ v2 e2 => hcatch cfg.enumLength cfg.enumCount v2 e2
  have hinit : ((initState cfg st (bodyNames cfg st fr)).possibleTypes.getD c 0).testBit k
      = true := by
    rw [show (initState cfg st (bodyNames cfg st fr)).possibleTypes =
        List.replicate (bodyNames cfg st fr).length (allPossibleTypes cfg) from rfl]
    rw [getD_replicate _ _ _ _ hc2]
    have := allPossibleAux_active cfg.enumCount cfg.exclude cfg.types 0 0 k hk
      (by
        intro hcon
        rcases hcon with hcon | hcon
        · exact hne hcon
        · exact hnx hcon)
    simpa using this
  have hbit : (((intuitLoop cfg
      (handleRow cfg (initState cfg st (bodyNames cfg st fr)) fr) rest).1.possibleTypes.getD
        c 0).testBit k) = true := by
    rw [intuitLoop_keep cfg _ rest c k hcatch2]
    rw [handleRow_keep cfg _ fr c k hcatch2]
    exact hinit
  have hfinishp : (finish cfg kw (intuitLoop cfg
      (handleRow cfg (initState cfg st (bodyNames cfg st fr)) fr) rest).1).possibleTypes =
      (intuitLoop cfg
        (handleRow cfg (initState cfg st (bodyNames cfg st fr)) fr) rest).1.possibleTypes :=
    rfl
  have hmem : resolveOne cfg.types ((intuitLoop cfg
      (handleRow cfg (initState cfg st (bodyNames cfg st fr)) fr) rest).1.possibleTypes.getD
        c 0) ∈ cfg.types.map Ty.name := by
    refine resolveAux_mem cfg.types 0 _ ⟨k, hk, ?_⟩
    simpa using hbit
  constructor
  · rw [hfinishp]
    exact hmem
  · rw [finish_columnTypes cfg kw _ c (by rw [hnamesEq]; exact hc2)]
    split
    · exact enum_name_ne_empty _
    · rcases List.mem_map.mp hmem with ⟨tp, htp, hname⟩
      rw [← hname]
      exact hnames tp htp

/-- C1: for every input and every configuration whose catalog holds a
catch-all type (one whose handler always accepts, not excluded, not
disabled) and no anonymous types, a successful run resolves every column:
the resolver's priority scan finds a catalog member for each column, and
the emitted column type is never the empty string the source would
otherwise leave in place. -/
theorem c1_catchall_resolution (cfg0 : Config) (kw : String → Bool)
    (input : List ReadResult) (k : Nat) (hk : k < cfg0.types.length)
    (hcatch : ∀ (L C : Int) (v : String) (e2 : List String),
      ((cfg0.types.get ⟨k, hk⟩).handle L C v e2).1 = true)
    (hnx : (cfg0.types.get ⟨k, hk⟩).name ∉ cfg0.exclude)
    (hne : ¬((cfg0.types.get ⟨k, hk⟩).name = "enum" ∧ cfg0.enumCount = 0))
    (hnames : ∀ tp ∈ cfg0.types, tp.name ≠ "")
    (hok : (Intuit cfg0 kw input).2 = none)
    (c : Nat) (hc : c < (Intuit cfg0 kw input).1.columnNames.length) :
    resolveOne cfg0.types ((Intuit cfg0 kw input).1.possibleTypes.getD c 0) ∈
      cfg0.types.map Ty.name ∧
    (Intuit cfg0 kw input).1.columnTypes.getD c "" ≠ "" := by
  rw [Intuit.eq_def] at hok hc ⊢
  by_cases hrh : (tidy cfg0).readHeader = true
  · rw [if_pos hrh] at hok hc ⊢
    cases input with
    | nil => exact absurd hok (by simp)
    | cons r0 rest0 =>
      cases r0 with
      | error e0 => exact absurd hok (by simp)
      | ok hdr0 =>
        exact intuitBody_resolves (tidy cfg0) kw _ rest0 k hk hcatch hnx hne hnames hok c hc
  · rw [if_neg hrh] at hok hc ⊢
    exact intuitBody_resolves (tidy cfg0) kw Intuitor.start input k hk hcatch hnx hne
      hnames hok c hc

/-- Witness for C1: the default catalog's `text` entry (position 14) as the
catch-all, on a one-column, one-data-row run. -/
theorem c1_catchall_resolution_witness :
    ((Intuit newConfig (fun _ => false) [Except.ok ["a"], Except.ok ["x"]]).2 = none ∧
      0 < (Intuit newConfig (fun _ => false)
        [Except.ok ["a"], Except.ok ["x"]]).1.columnNames.length) ∧
    resolveOne newConfig.types ((Intuit newConfig (fun _ => false)
        [Except.ok ["a"], Except.ok ["x"]]).1.possibleTypes.getD 0 0) ∈
      newConfig.types.map Ty.name ∧
    (Intuit newConfig (fun _ => false)
        [Except.ok ["a"], Except.ok ["x"]]).1.columnTypes.getD 0 "" ≠ "" :=
  ⟨⟨by decide, by decide⟩,
   c1_catchall_resolution newConfig (fun _ => false) [Except.ok ["a"], Except.ok ["x"]]
     14 (by decide) (fun _ _ _ _ => rfl) (by decide) (by decide) (by decide)
     (by decide) 0 (by decide)⟩

/-! ## The empty-field run with null detection off -/

/-- Every default catalog entry below the `text` catch-all rejects the
empty string, whatever the configured limits and tracker state are. -/
theorem default_reject_empty (b : Nat) (hb : b < 14) (hb15 : b < defaultTypes.length)
    (L C : Int) (e2 : List String) :
    ((defaultTypes.get ⟨b, hb15⟩).handle L C "" e2).1 = false := by
  interval_cases b
  all_goals rfl

/-- Completeness of the ghost invocation log: a type still in the possible
set within the window of a catalog pass has its detector invoked by that
pass. -/
theorem narrowAux_invoked_mem (cfg : Config) (v : String) (types : List Ty)
    (i p : Nat) (e : List String) (j : Nat) (hj : j < types.length)
    (hbit : p.testBit (i + j) = true) :
    i + j ∈ (narrowAux cfg v types i p e).invoked := by
  induction types generalizing i p e j with
  | nil => simp at hj
  | cons tp rest ih =>
    rw [narrowAux]
    cases j with
    | zero =>
      rw [Nat.add_zero] at hbit ⊢
      simp only [hbit, if_true]
      exact List.mem_cons_self _ _
    | succ j2 =>
      have hj2 : j2 < rest.length := by simpa using Nat.lt_of_succ_lt_succ hj
      have harith : i + (j2 + 1) = i + 1 + j2 := by omega
      cases hb : p.testBit i with
      | true =>
        simp only [hb, if_true]
        cases hv : (tp.handle cfg.enumLength cfg.enumCount v e).1 with
        | true =>
          simp only [hv, if_true]
          refine List.mem_cons_of_mem _ ?_
          rw [harith] at hbit ⊢
          exact ih (i + 1) p _ j2 hj2 hbit
        | false =>
          simp only [hv, Bool.false_eq_true, if_false]
          refine List.mem_cons_of_mem _ ?_
          rw [harith] at hbit ⊢
          refine ih (i + 1) (andNot p (2 ^ i)) _ j2 hj2 ?_
          rw [testBit_andNot_pow_ne p i (i + 1 + j2) (by omega)]
          exact hbit
      | false =>
        simp only [hb, Bool.false_eq_true, if_false]
        rw [harith] at hbit ⊢
        exact ih (i + 1) p e j2 hj2 hbit

/-- With null detection off, an empty value takes the ordinary narrowing
branch of `handleCol`: the null flags are untouched, and every detector
still in the column's possible set is invoked on the empty string. -/
theorem handleCol_empty_notnull (cfg : Config) (st : Intuitor) (col j : Nat)
    (hnn : cfg.notNull = false) (hj : j < cfg.types.length)
    (hbit : (st.possibleTypes.getD col 0).testBit j = true) :
    (handleCol cfg st col "").null = st.null ∧
    (col, j) ∈ (handleCol cfg st col "").invoked := by
  have hne : ¬("" = "" ∧ cfg.notNull) := by
    intro h
    rw [hnn] at h
    exact Bool.false_ne_true h.2
  unfold handleCol
  rw [if_neg hne]
  refine ⟨rfl, ?_⟩
  refine List.mem_append_right _ ?_
  refine List.mem_map.mpr ⟨j, ?_, rfl⟩
  have := narrowAux_invoked_mem cfg "" cfg.types 0 (st.possibleTypes.getD col 0)
    (st.enums.getD col []) j hj (by simpa using hbit)
  simpa [narrow] using this

/-- Resolution against the default catalog when every bit below the
catch-all is clear and the catch-all bit is set: the column becomes
`text`. -/
theorem resolve_default_text (p : Nat)
    (h : ∀ b, b < 14 → p.testBit b = false) (h14 : p.testBit 14 = true) :
    resolveOne defaultTypes p = "text" := by
  simp [resolveOne, defaultTypes, resolveAux,
    h 0 (by omega), h 1 (by omega), h 2 (by omega), h 3 (by omega), h 4 (by omega),
    h 5 (by omega), h 6 (by omega), h 7 (by omega), h 8 (by omega), h 9 (by omega),
    h 10 (by omega), h 11 (by omega), h 12 (by omega), h 13 (by omega), h14]

/-- A row holding an empty value in some column, processed over the default
catalog with null detection off, clears every bit below the catch-all for
that column. -/
theorem handleRow_empty_clears (cfg : Config) (st : Intuitor) (r : List String)
    (c b : Nat) (hty : cfg.types = defaultTypes) (hnn : cfg.notNull = false)
    (hb : b < 14) (hc : c < r.length) (hv : r.get ⟨c, hc⟩ = "")
    (hlp : c < st.possibleTypes.length) (hle : c < st.enums.length) :
    ((handleRow cfg st r).possibleTypes.getD c 0).testBit b = false := by
  have hne : ¬(r.get ⟨c, hc⟩ = "" ∧ cfg.notNull) := by
    intro h2
    rw [hnn] at h2
    exact Bool.false_ne_true h2.2
  have hdl : b < defaultTypes.length := by
    rw [show defaultTypes.length = 15 from rfl]
    omega
  rw [(handleRow_parts cfg st r).1]
  rw [(handleCols_at cfg st 0 r c c hc (by omega) hlp hle hne).1]
  rw [hv]
  unfold narrow
  rw [hty]
  refine narrowAux_reject cfg "" defaultTypes 0 _ _ b b hdl (by omega) ?_
  intro e2
  exact default_reject_empty b hb hdl cfg.enumLength cfg.enumCount e2

/-- An empty value in one of the rows the loop processes (default catalog,
null detection off, no sample limit, well-shaped input) leaves the
corresponding column with every bit below the catch-all clear at the end of
the loop. -/
theorem intuitLoop_empty_clears (cfg : Config) (input : List ReadResult)
    (c b : Nat) (r0 : List String)
    (hty : cfg.types = defaultTypes) (hnn : cfg.notNull = false) (hs : cfg.sample = 0)
    (hb : b < 14) (hc : c < r0.length) (hv : r0.get ⟨c, hc⟩ = "") :
    ∀ st : Intuitor, Except.ok r0 ∈ input →
      c < st.possibleTypes.length → c < st.enums.length →
      (∀ x ∈ input, ∃ row, x = Except.ok row ∧ row.length = st.columnNames.length) →
      ((intuitLoop cfg st input).1.possibleTypes.getD c 0).testBit b = false := by
  induction input with
  | nil =>
    intro st hmem _ _ _
    simp at hmem
  | cons x rest ih =>
    intro st hmem hlp hle hall
    rcases hall x (List.mem_cons_self x rest) with ⟨row, hx, hlenr⟩
    subst hx
    rw [intuitLoop]
    rw [if_neg (by rw [hs]; simp)]
    rw [if_neg (by omega)]
    have hfields := handleRow_fields cfg { st with row := st.row + 1 } row
    have hlp2 : c < (handleRow cfg { st with row := st.row + 1 } row).possibleTypes.length := by
      rw [hfields.2.2.2.2.1]
      exact hlp
    have hle2 : c < (handleRow cfg { st with row := st.row + 1 } row).enums.length := by
      rw [hfields.2.2.2.2.2.1]
      exact hle
    have hall2 : ∀ x2 ∈ rest, ∃ row2, x2 = Except.ok row2 ∧
        row2.length = (handleRow cfg { st with row := st.row + 1 } row).columnNames.length := by
      intro x2 hm2
      rcases hall x2 (List.mem_cons_of_mem _ hm2) with ⟨row2, hx2, hl2⟩
      exact ⟨row2, hx2, by rw [hfields.1]; exact hl2⟩
    rcases List.mem_cons.mp hmem with hm | hm
    · injection hm with hr0
      subst hr0
      have hclear := handleRow_empty_clears cfg { st with row := st.row + 1 } r0 c b
        hty hnn hb hc hv hlp hle
      cases hres : ((intuitLoop cfg (handleRow cfg { st with row := st.row + 1 } r0)
          rest).1.possibleTypes.getD c 0).testBit b with
      | true =>
        have hsub := intuitLoop_subset cfg _ rest c b hres
        rw [hclear] at hsub
        exact absurd hsub (by simp)
      | false => rfl
    · exact ih (handleRow cfg { st with row := st.row + 1 } row) hm hlp2 hle2 hall2

/-- C10: with null detection off (the library default), an empty field is
handled through the ordinary narrowing pass like any other value: the null
flags are never written by the empty value's pass and every detector still
in the column's possible set is invoked on the empty string (last two
conjuncts); in the default catalog every detector below the `text`
catch-all rejects the empty string, so a no-header run over well-shaped
rows one of which holds an empty value in column `c` succeeds with every
bit below the catch-all cleared for `c`, the catch-all bit still set, the
column resolved to `text`, and the column not marked nullable. -/
theorem c10_empty_field_text (names : List String) (tname : String) (kw : String → Bool)
    (rows : List (List String)) (c b : Nat) (r0 : List String)
    (st : Intuitor) (col j : Nat)
    (hn : names.length ≠ 0)
    (hlen : ∀ r ∈ rows, r.length = names.length)
    (hc : c < names.length) (hb : b < 14)
    (hmem : r0 ∈ rows) (hc0 : c < r0.length) (hv : r0.get ⟨c, hc0⟩ = "")
    (hj : j < 15) (hbitj : (st.possibleTypes.getD col 0).testBit j = true) :
    (Intuit (noNullConfig names tname) kw (rows.map Except.ok)).2 = none ∧
    (Intuit (noNullConfig names tname) kw (rows.map Except.ok)).1.null.getD c false
      = false ∧
    ((Intuit (noNullConfig names tname) kw
        (rows.map Except.ok)).1.possibleTypes.getD c 0).testBit b = false ∧
    ((Intuit (noNullConfig names tname) kw
        (rows.map Except.ok)).1.possibleTypes.getD c 0).testBit 14 = true ∧
    (Intuit (noNullConfig names tname) kw (rows.map Except.ok)).1.columnTypes.getD c ""
      = "text" ∧
    (handleCol (tidy (noNullConfig names tname)) st col "").null = st.null ∧
    (col, j) ∈ (handleCol (tidy (noNullConfig names tname)) st col "").invoked := by
  have hty : (tidy (noNullConfig names tname)).types = defaultTypes := rfl
  have hnn : (tidy (noNullConfig names tname)).notNull = false := rfl
  have hs : (tidy (noNullConfig names tname)).sample = 0 := rfl
  have hcn : (tidy (noNullConfig names tname)).columnNames = names := rfl
  have hrh : ¬((tidy (noNullConfig names tname)).readHeader = true) := by
    rw [show (tidy (noNullConfig names tname)).readHeader = false from rfl]
    simp
  have hlast := handleCol_empty_notnull (tidy (noNullConfig names tname)) st col j hnn
    (by rw [hty, show defaultTypes.length = 15 from rfl]; omega) hbitj
  rw [Intuit.eq_def, if_neg hrh]
  cases rows with
  | nil => exact absurd hmem (List.not_mem_nil r0)
  | cons fr rs =>
    simp only [List.map_cons]
    have hflen : fr.length = names.length := hlen fr (List.mem_cons_self fr rs)
    have hbn : bodyNames (tidy (noNullConfig names tname)) Intuitor.start fr = names := by
      unfold bodyNames
      rw [if_pos (show Intuitor.start.columnNames.length = 0 from rfl)]
      rw [if_pos (by rw [hcn]; exact hn)]
      exact hcn
    have hlenne : ¬(fr.length ≠
        (bodyNames (tidy (noNullConfig names tname)) Intuitor.start fr).length) := by
      rw [hbn]
      omega
    have hinitnames : (initState (tidy (noNullConfig names tname)) Intuitor.start
        names).columnNames = names := rfl
    have hinitp : (initState (tidy (noNullConfig names tname)) Intuitor.start
        names).possibleTypes = List.replicate names.length
          (allPossibleTypes (tidy (noNullConfig names tname))) := rfl
    have hinite : (initState (tidy (noNullConfig names tname)) Intuitor.start
        names).enums = List.replicate names.length ([] : List String) := rfl
    have hinitn : (initState (tidy (noNullConfig names tname)) Intuitor.start
        names).null = List.replicate names.length false := rfl
    have hfieldsHR := handleRow_fields (tidy (noNullConfig names tname))
      (initState (tidy (noNullConfig names tname)) Intuitor.start names) fr
    have hlpHR : c < (handleRow (tidy (noNullConfig names tname))
        (initState (tidy (noNullConfig names tname)) Intuitor.start names)
        fr).possibleTypes.length := by
      rw [hfieldsHR.2.2.2.2.1, hinitp, List.length_replicate]
      exact hc
    have hleHR : c < (handleRow (tidy (noNullConfig names tname))
        (initState (tidy (noNullConfig names tname)) Intuitor.start names)
        fr).enums.length := by
      rw [hfieldsHR.2.2.2.2.2.1, hinite, List.length_replicate]
      exact hc
    have hallHR : ∀ x ∈ rs.map (Except.ok : List String → ReadResult),
        ∃ row2, x = Except.ok row2 ∧
        row2.length = (handleRow (tidy (noNullConfig names tname))
          (initState (tidy (noNullConfig names tname)) Intuitor.start
            names) fr).columnNames.length := by
      intro x hm2
      rcases List.mem_map.mp hm2 with ⟨row2, hm2b, hx⟩
      refine ⟨row2, hx.symm, ?_⟩
      rw [hfieldsHR.1, hinitnames]
      exact hlen row2 (List.mem_cons_of_mem fr hm2b)
    have hloopnone : (intuitLoop (tidy (noNullConfig names tname))
        (handleRow (tidy (noNullConfig names tname))
          (initState (tidy (noNullConfig names tname)) Intuitor.start names) fr)
        (rs.map Except.ok)).2 = none :=
      intuitLoop_complete _ _ _ hs hallHR
    have hnone : (intuitBody (tidy (noNullConfig names tname)) kw Intuitor.start
        (Except.ok fr :: rs.map Except.ok)).2 = none := by
      rw [intuitBody, if_neg hlenne, hbn]
      cases hp : intuitLoop (tidy (noNullConfig names tname))
          (handleRow (tidy (noNullConfig names tname))
            (initState (tidy (noNullConfig names tname)) Intuitor.start names) fr)
          (rs.map Except.ok) with
      | mk st5 e? =>
        rw [hp] at hloopnone
        cases e? with
        | some e => exact absurd hloopnone (by simp)
        | none => rfl
    rcases intuitBody_none (tidy (noNullConfig names tname)) kw Intuitor.start
      (Except.ok fr :: rs.map Except.ok) hnone with ⟨fr2, rest2, heq, hlen2, hloop2, hres2⟩
    injection heq with h1 h2
    injection h1 with h1b
    subst h1b
    subst h2
    rw [hbn] at hres2
    have hfieldsT := intuitLoop_fields (tidy (noNullConfig names tname))
      (handleRow (tidy (noNullConfig names tname))
        (initState (tidy (noNullConfig names tname)) Intuitor.start names) fr)
      (rs.map Except.ok)
    have hnamesT : (intuitLoop (tidy (noNullConfig names tname))
        (handleRow (tidy (noNullConfig names tname))
          (initState (tidy (noNullConfig names tname)) Intuitor.start names) fr)
        (rs.map Except.ok)).1.columnNames = names := by
      rw [hfieldsT.1, hfieldsHR.1, hinitnames]
    have hcatch14 : ∀ (hlt : 14 < (tidy (noNullConfig names tname)).types.length)
        (v2 : String) (e2 : List String),
        (((tidy (noNullConfig names tname)).types.get ⟨14, hlt⟩).handle
          (tidy (noNullConfig names tname)).enumLength
          (tidy (noNullConfig names tname)).enumCount v2 e2).1 = true := by
      intro hlt v2 e2
      rfl
    have hbit14 : ((intuitLoop (tidy (noNullConfig names tname))
        (handleRow (tidy (noNullConfig names tname))
          (initState (tidy (noNullConfig names tname)) Intuitor.start names) fr)
        (rs.map Except.ok)).1.possibleTypes.getD c 0).testBit 14 = true := by
      rw [intuitLoop_keep _ _ _ c 14 hcatch14]
      rw [handleRow_keep _ _ _ c 14 hcatch14]
      have hgd : (initState (tidy (noNullConfig names tname)) Intuitor.start
          names).possibleTypes.getD c 0 =
          allPossibleTypes (tidy (noNullConfig names tname)) := by
        rw [hinitp]
        exact getD_replicate _ _ _ _ hc
      rw [hgd]
      have hec : (tidy (noNullConfig names tname)).enumCount = 20 := rfl
      have hex : (tidy (noNullConfig names tname)).exclude = [] := rfl
      have hapt : allPossibleTypes (tidy (noNullConfig names tname)) =
          allPossibleAux 20 [] defaultTypes 0 0 := by
        unfold allPossibleTypes
        rw [hec, hex, hty]
      rw [hapt]
      rw [show allPossibleAux 20 [] defaultTypes 0 0 = 32767 from by decide]
      decide
    have hclearsAll : ∀ b2, b2 < 14 →
        ((intuitLoop (tidy (noNullConfig names tname))
          (handleRow (tidy (noNullConfig names tname))
            (initState (tidy (noNullConfig names tname)) Intuitor.start names) fr)
          (rs.map Except.ok)).1.possibleTypes.getD c 0).testBit b2 = false := by
      intro b2 hb2
      rcases List.mem_cons.mp hmem with hm | hm
      · subst hm
        have hclear := handleRow_empty_clears (tidy (noNullConfig names tname))
          (initState (tidy (noNullConfig names tname)) Intuitor.start names) r0 c b2
          hty hnn hb2 hc0 hv
          (by rw [hinitp, List.length_replicate]; exact hc)
          (by rw [hinite, List.length_replicate]; exact hc)
        cases hres : ((intuitLoop (tidy (noNullConfig names tname))
            (handleRow (tidy (noNullConfig names tname))
              (initState (tidy (noNullConfig names tname)) Intuitor.start names) r0)
            (rs.map Except.ok)).1.possibleTypes.getD c 0).testBit b2 with
        | true =>
          have hsub := intuitLoop_subset _ _ _ c b2 hres
          rw [hclear] at hsub
          exact absurd hsub (by simp)
        | false => rfl
      · exact intuitLoop_empty_clears (tidy (noNullConfig names tname))
          (rs.map Except.ok) c b2 r0 hty hnn hs hb2 hc0 hv
          (handleRow (tidy (noNullConfig names tname))
            (initState (tidy (noNullConfig names tname)) Intuitor.start names) fr)
          (List.mem_map.mpr ⟨r0, hm, rfl⟩) hlpHR hleHR hallHR
    have hnullT : (intuitLoop (tidy (noNullConfig names tname))
        (handleRow (tidy (noNullConfig names tname))
          (initState (tidy (noNullConfig names tname)) Intuitor.start names) fr)
        (rs.map Except.ok)).1.null.getD c false = false := by
      rw [intuitLoop_null _ _ _ hnn]
      rw [(handleRow_parts _ _ _).2.2.1]
      rw [handleCols_null_notnull _ _ 0 fr hnn]
      rw [hinitn]
      rw [getD_replicate _ _ _ _ hc]
    have hctypes : (finish (tidy (noNullConfig names tname)) kw
        (intuitLoop (tidy (noNullConfig names tname))
          (handleRow (tidy (noNullConfig names tname))
            (initState (tidy (noNullConfig names tname)) Intuitor.start names) fr)
          (rs.map Except.ok)).1).columnTypes.getD c "" = "text" := by
      rw [finish_columnTypes _ kw _ c (by rw [hnamesT]; exact hc)]
      rw [hty]
      rw [resolve_default_text _ hclearsAll hbit14]
      rw [if_neg (by decide)]
    refine ⟨hnone, ?_, ?_, ?_, ?_, hlast.1, hlast.2⟩
    · rw [hres2, (finish_fields _ kw _).2.2.2.1]
      exact hnullT
    · rw [hres2, (finish_fields _ kw _).2.1]
      exact hclearsAll b hb
    · rw [hres2, (finish_fields _ kw _).2.1]
      exact hbit14
    · rw [hres2]
      exact hctypes

/-- Witness for C10: a one-column, one-row run whose only field is empty,
with the invocation conjuncts taken at the full default possible set and
the `enum` detector's position. -/
theorem c10_empty_field_text_witness :
    ((["a"] : List String).length ≠ 0 ∧
      (∀ r ∈ [[""]], r.length = (["a"] : List String).length) ∧
      0 < (["a"] : List String).length ∧ 0 < 14 ∧
      [""] ∈ [[""]] ∧ 0 < ([""] : List String).length ∧
      ([""] : List String).get ⟨0, by decide⟩ = "" ∧ 13 < 15 ∧
      (((oneColState 32767).possibleTypes.getD 0 0).testBit 13) = true) ∧
    (Intuit (noNullConfig ["a"] "t") (fun _ => false) ([[""]].map Except.ok)).2 = none ∧
    (Intuit (noNullConfig ["a"] "t") (fun _ => false)
      ([[""]].map Except.ok)).1.null.getD 0 false = false ∧
    ((Intuit (noNullConfig ["a"] "t") (fun _ => false)
      ([[""]].map Except.ok)).1.possibleTypes.getD 0 0).testBit 0 = false ∧
    ((Intuit (noNullConfig ["a"] "t") (fun _ => false)
      ([[""]].map Except.ok)).1.possibleTypes.getD 0 0).testBit 14 = true ∧
    (Intuit (noNullConfig ["a"] "t") (fun _ => false)
      ([[""]].map Except.ok)).1.columnTypes.getD 0 "" = "text" ∧
    (handleCol (tidy (noNullConfig ["a"] "t")) (oneColState 32767) 0 "").null =
      (oneColState 32767).null ∧
    (0, 13) ∈ (handleCol (tidy (noNullConfig ["a"] "t")) (oneColState 32767) 0 "").invoked :=
  ⟨⟨by decide, by decide, by decide, by decide, by decide, by decide, by decide,
    by decide, by decide⟩,
   c10_empty_field_text ["a"] "t" (fun _ => false) [[""]] 0 0 [""]
     (oneColState 32767) 0 13 (by decide) (by decide) (by decide) (by decide)
     (by decide) (by decide) (by decide) (by decide) (by decide)⟩

/-! ## The enum-cutoff analysis -/

/-- The default catalog splits at the `enum` tracker: thirteen stateless
entries, then the tracker, then the catch-all. -/
theorem defaultTypes_split :
    defaultTypes = pureDefaults ++
      [⟨"enum", enumHandle⟩, ⟨"text", makeWrapper (fun _ => true)⟩] := rfl

/-- Ordered-distinct insertion never shortens the tracker. -/
theorem insertDistinct_length_ge (e : List String) (v : String) :
    e.length ≤ (insertDistinct e v).length := by
  unfold insertDistinct
  split
  · exact Nat.le_refl _
  · simp

/-- Folding ordered-distinct insertions never shortens the tracker. -/
theorem foldl_insertDistinct_length_ge (vs : List String) (acc : List String) :
    acc.length ≤ (vs.foldl insertDistinct acc).length := by
  induction vs generalizing acc with
  | nil => simp
  | cons v rest ih =>
    rw [List.foldl_cons]
    exact (insertDistinct_length_ge acc v).trans (ih (insertDistinct acc v))

/-- Evaluation of the enum handler on a valid token: an already-recorded
value is accepted with the tracker unchanged; a new value is recorded and
accepted exactly when the count after insertion stays within the cutoff. -/
theorem enumHandle_eval (L C : Int) (v : String) (e : List String)
    (htok : isEnumToken v = true) (hlv : (v.utf8ByteSize : Int) ≤ L) :
    enumHandle L C v e =
      (if v ∈ e then (true, e)
       else (decide ((((e ++ [v]).length : Nat) : Int) ≤ C), e ++ [v])) := by
  have hsz : v.utf8ByteSize ≠ 0 := utf8ByteSize_ne_zero v (isEnumToken_ne_empty v htok)
  have hc1 : ¬((v.utf8ByteSize == 0 || decide ((v.utf8ByteSize : Int) > L)) = true) := by
    simp only [Bool.or_eq_true, beq_iff_eq, decide_eq_true_eq, not_or]
    exact ⟨hsz, by omega⟩
  have hc2 : ¬((!isEnumToken v) = true) := by
    rw [htok]
    simp
  unfold enumHandle
  rw [if_neg hc1, if_neg hc2]

/-- The rejection condition of the enum handler, in the claim's terms: a
value is rejected iff it is empty, longer than the configured byte cutoff,
fails the token pattern, or is a new distinct value whose insertion pushes
the distinct count past the cutoff. -/
theorem enumHandle_reject_iff (L C : Int) (v : String) (e : List String) :
    (enumHandle L C v e).1 = false ↔
      (v.utf8ByteSize = 0 ∨ (v.utf8ByteSize : Int) > L ∨ isEnumToken v = false ∨
        (v ∉ e ∧ ¬(((insertDistinct e v).length : Int) ≤ C))) := by
  by_cases h1 : (v.utf8ByteSize == 0 || decide ((v.utf8ByteSize : Int) > L)) = true
  · have hval : enumHandle L C v e = (false, e) := by
      unfold enumHandle
      rw [if_pos h1]
    rw [hval]
    simp only [Bool.or_eq_true, beq_iff_eq, decide_eq_true_eq] at h1
    refine iff_of_true rfl ?_
    rcases h1 with h | h
    · exact Or.inl h
    · exact Or.inr (Or.inl h)
  · have h1' : ¬(v.utf8ByteSize = 0) ∧ ¬((v.utf8ByteSize : Int) > L) := by
      simpa only [Bool.or_eq_true, beq_iff_eq, decide_eq_true_eq, not_or] using h1
    by_cases h2 : isEnumToken v = true
    · have hev := enumHandle_eval L C v e h2 (by omega)
      by_cases h3 : v ∈ e
      · rw [hev, if_pos h3]
        simp [h1'.1, h1'.2, h2, h3]
      · rw [hev, if_neg h3]
        simp [insertDistinct, h1'.1, h1'.2, h2, h3, decide_eq_false_iff_not]
    · have h2f : isEnumToken v = false := by
        revert h2
        cases isEnumToken v <;> simp
      have hval : enumHandle L C v e = (false, e) := by
        unfold enumHandle
        rw [if_neg h1, if_pos (by rw [h2f]; rfl)]
      rw [hval]
      exact iff_of_true rfl (Or.inr (Or.inr (Or.inl h2f)))


/-- Resolution against the default catalog when every bit below the enum
tracker is clear and the tracker bit is set: the column becomes `enum`. -/
theorem resolve_default_enum (p : Nat)
    (h : ∀ b, b < 13 → p.testBit b = false) (h13 : p.testBit 13 = true) :
    resolveOne defaultTypes p = "enum" := by
  simp [resolveOne, defaultTypes, resolveAux,
    h 0 (by omega), h 1 (by omega), h 2 (by omega), h 3 (by omega), h 4 (by omega),
    h 5 (by omega), h 6 (by omega), h 7 (by omega), h 8 (by omega), h 9 (by omega),
    h 10 (by omega), h 11 (by omega), h 12 (by omega), h13]

/-- One catalog pass over a valid enum token, as seen by the tracker: the
recorded values become the ordered-distinct insertion of the value, and the
tracker bit survives exactly when the value was already recorded or the
count after insertion stays within the cutoff. -/
theorem narrow_enum_step (cfg : Config) (v : String) (p : Nat) (e : List String)
    (hty : cfg.types = defaultTypes)
    (htok : isEnumToken v = true) (hlv : (v.utf8ByteSize : Int) ≤ cfg.enumLength)
    (hbit : p.testBit 13 = true) :
    (narrow cfg v p e).enums = insertDistinct e v ∧
    (narrow cfg v p e).possibles.testBit 13 =
      (decide (v ∈ e) ||
        decide (((insertDistinct e v).length : Int) ≤ cfg.enumCount)) := by
  have hhe := enumHandle_eval cfg.enumLength cfg.enumCount v e htok hlv
  have hpure : ∀ tp ∈ pureDefaults, ∀ e2 : List String,
      (tp.handle cfg.enumLength cfg.enumCount v e2).2 = e2 := by
    intro tp htp
    simp only [pureDefaults, List.mem_cons, List.not_mem_nil, or_false] at htp
    rcases htp with rfl | rfl | rfl | rfl | rfl | rfl | rfl | rfl | rfl | rfl | rfl | rfl | rfl
    all_goals exact fun e2 => rfl
  have hkeep : (narrowAux cfg v pureDefaults 0 p e).possibles.testBit 13 = p.testBit 13 := by
    refine narrowAux_keep cfg v pureDefaults 0 p e 13 ?_
    intro k hk hkj e2
    exfalso
    have hk13 : k < 13 := by simpa [pureDefaults] using hk
    omega
  have hE13 : (narrowAux cfg v pureDefaults 0 p e).enums = e :=
    narrowAux_pure_enums cfg v pureDefaults 0 p e hpure
  have hq : (narrowAux cfg v pureDefaults 0 p e).possibles.testBit 13 = true := by
    rw [hkeep]
    exact hbit
  have hpuret : ∀ tp ∈ [(⟨"text", makeWrapper (fun _ => true)⟩ : Ty)], ∀ e2 : List String,
      (tp.handle cfg.enumLength cfg.enumCount v e2).2 = e2 := by
    intro tp htp
    simp only [List.mem_cons, List.not_mem_nil, or_false] at htp
    subst htp
    exact fun e2 => rfl
  have hkeept : ∀ (q2 : Nat) (e2 : List String),
      (narrowAux cfg v [(⟨"text", makeWrapper (fun _ => true)⟩ : Ty)] 14 q2
        e2).possibles.testBit 13 = q2.testBit 13 := by
    intro q2 e2
    refine narrowAux_keep cfg v _ 14 q2 e2 13 ?_
    intro k hk hkj e3
    exfalso
    omega
  have henumt : ∀ (q2 : Nat) (e2 : List String),
      (narrowAux cfg v [(⟨"text", makeWrapper (fun _ => true)⟩ : Ty)] 14 q2 e2).enums = e2 :=
    fun q2 e2 => narrowAux_pure_enums cfg v _ 14 q2 e2 hpuret
  have happ := narrowAux_append cfg v pureDefaults
    [⟨"enum", enumHandle⟩, ⟨"text", makeWrapper (fun _ => true)⟩] 0 p e
  have hplen : (0 : Nat) + pureDefaults.length = 13 := rfl
  rw [hplen, hE13] at happ
  have hcore : (narrowAux cfg v
        [(⟨"enum", enumHandle⟩ : Ty), ⟨"text", makeWrapper (fun _ => true)⟩] 13
        (narrowAux cfg v pureDefaults 0 p e).possibles e).enums = insertDistinct e v ∧
      (narrowAux cfg v
        [(⟨"enum", enumHandle⟩ : Ty), ⟨"text", makeWrapper (fun _ => true)⟩] 13
        (narrowAux cfg v pureDefaults 0 p e).possibles e).possibles.testBit 13 =
        (decide (v ∈ e) ||
          decide (((insertDistinct e v).length : Int) ≤ cfg.enumCount)) := by
    rw [narrowAux]
    simp only [hq, if_true, hhe]
    by_cases hmv : v ∈ e
    · simp only [if_pos hmv]
      constructor
      · simp only [henumt]
        rw [insertDistinct, if_pos hmv]
      · simp only [hkeept]
        simp [hq, hmv]
    · simp only [if_neg hmv]
      cases hd : decide ((((e ++ [v]).length : Nat) : Int) ≤ cfg.enumCount) with
      | true =>
        simp only [hd, if_true]
        constructor
        · simp only [henumt]
          rw [insertDistinct, if_neg hmv]
        · simp only [hkeept]
          rw [hq]
          simp only [insertDistinct, if_neg hmv]
          have hd0 : ((e ++ [v]).length : Int) ≤ cfg.enumCount := of_decide_eq_true hd
          have hd1 : ((e.length + 1 : Nat) : Int) ≤ cfg.enumCount := by simpa using hd0
          simp [hmv]
          omega
      | false =>
        simp only [hd, Bool.false_eq_true, if_false]
        constructor
        · simp only [henumt]
          rw [insertDistinct, if_neg hmv]
        · simp only [hkeept]
          rw [testBit_andNot_pow_self]
          simp only [insertDistinct, if_neg hmv]
          have hd0 : ¬(((e ++ [v]).length : Int) ≤ cfg.enumCount) := of_decide_eq_false hd
          have hd1 : ¬(((e.length + 1 : Nat) : Int) ≤ cfg.enumCount) := by simpa using hd0
          simp [hmv]
          omega
  unfold narrow
  rw [hty, defaultTypes_split]
  exact ⟨happ.2.trans hcore.1, by rw [happ.1]; exact hcore.2⟩

/-- The row loop over single-value rows of valid enum tokens, as seen by
the tracker of the single column: starting from a state whose tracker bit
is set and whose recorded values number within the cutoff, the bit survives
with the recorded values folded up exactly when the folded distinct count
stays within the cutoff, and is cleared when the count passes it. -/
theorem intuitLoop_enum_track (cfg : Config) (K : Nat)
    (hty : cfg.types = defaultTypes) (hnn : cfg.notNull = false) (hs : cfg.sample = 0)
    (hC : cfg.enumCount = (K : Int)) (vs : List String) :
    ∀ (st : Intuitor) (acc : List String),
      (∀ v ∈ vs, isEnumToken v = true ∧ (v.utf8ByteSize : Int) ≤ cfg.enumLength) →
      st.columnNames.length = 1 →
      0 < st.possibleTypes.length → 0 < st.enums.length →
      (st.possibleTypes.getD 0 0).testBit 13 = true →
      st.enums.getD 0 [] = acc → acc.length ≤ K →
      (((vs.foldl insertDistinct acc).length ≤ K →
        ((intuitLoop cfg st (vs.map fun v => Except.ok [v])).1.possibleTypes.getD
            0 0).testBit 13 = true ∧
          (intuitLoop cfg st (vs.map fun v => Except.ok [v])).1.enums.getD 0 []
            = vs.foldl insertDistinct acc) ∧
       (K < (vs.foldl insertDistinct acc).length →
        ((intuitLoop cfg st (vs.map fun v => Except.ok [v])).1.possibleTypes.getD
            0 0).testBit 13 = false)) := by
  induction vs with
  | nil =>
    intro st acc hvs h1 hp he hbit henum hacc
    constructor
    · intro _
      rw [List.map_nil, intuitLoop]
      rw [if_neg (by rw [hs]; simp)]
      rw [List.foldl_nil]
      exact ⟨hbit, henum⟩
    · intro hgt
      rw [List.foldl_nil] at hgt
      omega
  | cons v rest ih =>
    intro st acc hvs h1 hp he hbit henum hacc
    obtain ⟨htok, hlv⟩ := hvs v (List.mem_cons_self v rest)
    have hvsrest : ∀ v2 ∈ rest, isEnumToken v2 = true ∧
        (v2.utf8ByteSize : Int) ≤ cfg.enumLength :=
      fun v2 hm => hvs v2 (List.mem_cons_of_mem v hm)
    rw [List.map_cons, intuitLoop]
    rw [if_neg (by rw [hs]; simp)]
    rw [if_neg (by rw [h1]; simp)]
    have hne0 : ¬(([v] : List String).get ⟨0, by simp⟩ = "" ∧ cfg.notNull) := by
      intro hcon
      rw [hnn] at hcon
      exact Bool.false_ne_true hcon.2
    have hat := handleCols_at cfg { st with row := st.row + 1 } 0 [v] 0 0 (by simp) rfl
      hp he hne0
    simp only [List.get] at hat
    have hstep := narrow_enum_step cfg v (st.possibleTypes.getD 0 0) acc hty htok hlv hbit
    have hposs2 : (handleRow cfg { st with row := st.row + 1 } [v]).possibleTypes.getD 0 0 =
        (narrow cfg v (st.possibleTypes.getD 0 0) acc).possibles := by
      rw [(handleRow_parts cfg { st with row := st.row + 1 } [v]).1]
      rw [hat.1]
      rw [show ({ st with row := st.row + 1 } : Intuitor).possibleTypes = st.possibleTypes
        from rfl]
      rw [show ({ st with row := st.row + 1 } : Intuitor).enums = st.enums from rfl]
      rw [henum]
    have henums2 : (handleRow cfg { st with row := st.row + 1 } [v]).enums.getD 0 [] =
        insertDistinct acc v := by
      rw [(handleRow_parts cfg { st with row := st.row + 1 } [v]).2.1]
      rw [hat.2]
      rw [show ({ st with row := st.row + 1 } : Intuitor).possibleTypes = st.possibleTypes
        from rfl]
      rw [show ({ st with row := st.row + 1 } : Intuitor).enums = st.enums from rfl]
      rw [henum]
      exact hstep.1
    have hfields := handleRow_fields cfg { st with row := st.row + 1 } [v]
    have h1' : (handleRow cfg { st with row := st.row + 1 } [v]).columnNames.length = 1 := by
      rw [hfields.1]
      exact h1
    have hp' : 0 < (handleRow cfg { st with row := st.row + 1 } [v]).possibleTypes.length := by
      rw [hfields.2.2.2.2.1]
      exact hp
    have he' : 0 < (handleRow cfg { st with row := st.row + 1 } [v]).enums.length := by
      rw [hfields.2.2.2.2.2.1]
      exact he
    by_cases hgrow : (insertDistinct acc v).length ≤ K
    · have hbit' : ((handleRow cfg { st with row := st.row + 1 }
          [v]).possibleTypes.getD 0 0).testBit 13 = true := by
        rw [hposs2, hstep.2]
        by_cases hm : v ∈ acc
        · simp [hm]
        · have hle : ((insertDistinct acc v).length : Int) ≤ cfg.enumCount := by
            rw [hC]
            exact_mod_cast hgrow
          simp [hle]
      have hih := ih (handleRow cfg { st with row := st.row + 1 } [v])
        (insertDistinct acc v) hvsrest h1' hp' he' hbit' henums2 hgrow
      rw [List.foldl_cons]
      exact hih
    · have hvnot : v ∉ acc := by
        intro hm
        simp only [insertDistinct, if_pos hm] at hgrow
        exact hgrow hacc
      have hbit' : ((handleRow cfg { st with row := st.row + 1 }
          [v]).possibleTypes.getD 0 0).testBit 13 = false := by
        rw [hposs2, hstep.2]
        have hd1 : decide (v ∈ acc) = false := by simp [hvnot]
        have hd2 : decide (((insertDistinct acc v).length : Int) ≤ cfg.enumCount) = false := by
          rw [hC]
          simp only [decide_eq_false_iff_not]
          intro hcon
          exact hgrow (by exact_mod_cast hcon)
        rw [hd1, hd2]
        rfl
      have hfinal : ((intuitLoop cfg (handleRow cfg { st with row := st.row + 1 } [v])
          (rest.map fun v2 => Except.ok [v2])).1.possibleTypes.getD 0 0).testBit 13
          = false := by
        cases hres : ((intuitLoop cfg (handleRow cfg { st with row := st.row + 1 } [v])
            (rest.map fun v2 => Except.ok [v2])).1.possibleTypes.getD 0 0).testBit 13 with
        | true =>
          have hsub := intuitLoop_subset cfg _ _ 0 13 hres
          rw [hbit'] at hsub
          exact absurd hsub (by simp)
        | false => rfl
      constructor
      · intro hle
        rw [List.foldl_cons] at hle
        have := foldl_insertDistinct_length_ge rest (insertDistinct acc v)
        omega
      · intro _
        exact hfinal

/-- C3 counterexample: with the enum distinct cutoff K = 2, the single
column of the two rows `t`, `f` holds exactly K = 2 distinct short valid
enum tokens and the enum tracker bit survives the run — yet the column
resolves to `boolean`, not to the column's enum type, because a
higher-priority type that accepts every value preempts `enum` in the
priority scan. -/
theorem c3_counterexample :
    (∀ v ∈ ["t", "f"], isEnumToken v = true ∧ v.utf8ByteSize ≤ 10) ∧
    (distinctVals ["t", "f"]).length = 2 ∧
    (Intuit (enumRunConfig 2 "c" "tbl") (fun _ => false)
      [Except.ok ["t"], Except.ok ["f"]]).2 = none ∧
    ((Intuit (enumRunConfig 2 "c" "tbl") (fun _ => false)
      [Except.ok ["t"], Except.ok ["f"]]).1.possibleTypes.getD 0 0).testBit 13 = true ∧
    (Intuit (enumRunConfig 2 "c" "tbl") (fun _ => false)
      [Except.ok ["t"], Except.ok ["f"]]).1.columnTypes.getD 0 "" = "boolean" ∧
    (Intuit (enumRunConfig 2 "c" "tbl") (fun _ => false)
      [Except.ok ["t"], Except.ok ["f"]]).1.columnTypes.getD 0 "" ≠ "c" ++ "_enum" := by
  decide

/-- C3 (amended): the enum detector rejects a value iff it is empty,
overlong, fails the token pattern, or is a new distinct value whose
insertion pushes the distinct count past the cutoff (first conjunct); for a
single-column no-header default-catalog run over valid short enum tokens
with cutoff K ≥ 1, the run succeeds, and: with at most K distinct values
the tracker bit survives with all distinct values recorded, and — provided
the values have also eliminated every higher-priority type — the column
resolves to the column's enum type `nm_enum`; with more than K distinct
values the tracker bit is cleared and the resolved type is not `enum` (so
no enum patching happens for the column). -/
theorem c3_enum_cutoff (K : Nat) (nm tname : String) (kw : String → Bool)
    (vs : List String) (L C : Int) (v0 : String) (e0 : List String)
    (hK : 1 ≤ K)
    (hvs : ∀ v ∈ vs, isEnumToken v = true ∧ v.utf8ByteSize ≤ 10)
    (hne : vs ≠ [])
    (hhi : ∀ k, k < 13 →
      ((Intuit (enumRunConfig K nm tname) kw
        (vs.map fun v => Except.ok [v])).1.possibleTypes.getD 0 0).testBit k = false) :
    ((enumHandle L C v0 e0).1 = false ↔
      (v0.utf8ByteSize = 0 ∨ (v0.utf8ByteSize : Int) > L ∨ isEnumToken v0 = false ∨
        (v0 ∉ e0 ∧ ¬(((insertDistinct e0 v0).length : Int) ≤ C)))) ∧
    (Intuit (enumRunConfig K nm tname) kw (vs.map fun v => Except.ok [v])).2 = none ∧
    ((distinctVals vs).length ≤ K →
      ((Intuit (enumRunConfig K nm tname) kw
        (vs.map fun v => Except.ok [v])).1.possibleTypes.getD 0 0).testBit 13 = true ∧
      (Intuit (enumRunConfig K nm tname) kw
        (vs.map fun v => Except.ok [v])).1.enums.getD 0 [] = distinctVals vs ∧
      (Intuit (enumRunConfig K nm tname) kw
        (vs.map fun v => Except.ok [v])).1.columnTypes.getD 0 "" = nm ++ "_enum") ∧
    (K < (distinctVals vs).length →
      ((Intuit (enumRunConfig K nm tname) kw
        (vs.map fun v => Except.ok [v])).1.possibleTypes.getD 0 0).testBit 13 = false ∧
      resolveOne defaultTypes ((Intuit (enumRunConfig K nm tname) kw
        (vs.map fun v => Except.ok [v])).1.possibleTypes.getD 0 0) ≠ "enum" ∧
      (Intuit (enumRunConfig K nm tname) kw
        (vs.map fun v => Except.ok [v])).1.columnTypes.getD 0 "" =
        resolveOne defaultTypes ((Intuit (enumRunConfig K nm tname) kw
          (vs.map fun v => Except.ok [v])).1.possibleTypes.getD 0 0)) := by
  have htyE : (tidy (enumRunConfig K nm tname)).types = defaultTypes := rfl
  have hnnE : (tidy (enumRunConfig K nm tname)).notNull = false := rfl
  have hsE : (tidy (enumRunConfig K nm tname)).sample = 0 := rfl
  have hcnE : (tidy (enumRunConfig K nm tname)).columnNames = [nm] := rfl
  have hecE : (tidy (enumRunConfig K nm tname)).enumCount = (K : Int) := rfl
  have hexE : (tidy (enumRunConfig K nm tname)).exclude = [] := rfl
  have hrh : ¬((tidy (enumRunConfig K nm tname)).readHeader = true) := by
    rw [show (tidy (enumRunConfig K nm tname)).readHeader = false from rfl]
    simp
  refine ⟨enumHandle_reject_iff L C v0 e0, ?_⟩
  rw [Intuit.eq_def, if_neg hrh] at hhi ⊢
  cases vs with
  | nil => exact absurd rfl hne
  | cons v1 vr =>
    simp only [List.map_cons] at hhi ⊢
    obtain ⟨htok1, hb1⟩ := hvs v1 (List.mem_cons_self v1 vr)
    have hlv1 : (v1.utf8ByteSize : Int) ≤ (tidy (enumRunConfig K nm tname)).enumLength := by
      rw [show (tidy (enumRunConfig K nm tname)).enumLength = (10 : Int) from rfl]
      exact_mod_cast hb1
    have hvsr : ∀ v ∈ vr, isEnumToken v = true ∧
        (v.utf8ByteSize : Int) ≤ (tidy (enumRunConfig K nm tname)).enumLength := by
      intro v hm
      obtain ⟨ht, hb⟩ := hvs v (List.mem_cons_of_mem v1 hm)
      refine ⟨ht, ?_⟩
      rw [show (tidy (enumRunConfig K nm tname)).enumLength = (10 : Int) from rfl]
      exact_mod_cast hb
    have hbn : bodyNames (tidy (enumRunConfig K nm tname)) Intuitor.start [v1] = [nm] := by
      unfold bodyNames
      rw [if_pos (show Intuitor.start.columnNames.length = 0 from rfl)]
      rw [if_pos (by rw [hcnE]; simp)]
      exact hcnE
    have hlenne : ¬(([v1] : List String).length ≠
        (bodyNames (tidy (enumRunConfig K nm tname)) Intuitor.start [v1]).length) := by
      rw [hbn]
      simp
    have hp0 : (initState (tidy (enumRunConfig K nm tname)) Intuitor.start
        [nm]).possibleTypes.getD 0 0 =
        allPossibleTypes (tidy (enumRunConfig K nm tname)) := by
      rw [show (initState (tidy (enumRunConfig K nm tname)) Intuitor.start
        [nm]).possibleTypes =
        List.replicate 1 (allPossibleTypes (tidy (enumRunConfig K nm tname))) from rfl]
      exact getD_replicate _ _ _ _ (by omega)
    have he0 : (initState (tidy (enumRunConfig K nm tname)) Intuitor.start
        [nm]).enums.getD 0 [] = [] := by
      rw [show (initState (tidy (enumRunConfig K nm tname)) Intuitor.start
        [nm]).enums = List.replicate 1 ([] : List String) from rfl]
      exact getD_replicate _ _ _ _ (by omega)
    have haptbit : (allPossibleTypes (tidy (enumRunConfig K nm tname))).testBit 13
        = true := by
      unfold allPossibleTypes
      rw [hecE, hexE, htyE]
      have hact := allPossibleAux_active (K : Int) [] defaultTypes 0 0 13
        (by rw [show defaultTypes.length = 15 from rfl]; omega)
        (by
          intro hcon
          rcases hcon with ⟨_, hz⟩ | hin
          · have hK0 : K = 0 := by exact_mod_cast hz
            omega
          · simp at hin)
      simpa using hact
    have hne0 : ¬(([v1] : List String).get ⟨0, by simp⟩ = "" ∧
        (tidy (enumRunConfig K nm tname)).notNull) := by
      intro hcon
      rw [hnnE] at hcon
      exact Bool.false_ne_true hcon.2
    have hat := handleCols_at (tidy (enumRunConfig K nm tname))
      (initState (tidy (enumRunConfig K nm tname)) Intuitor.start [nm]) 0 [v1] 0 0
      (by simp) rfl (by rw [show (initState (tidy (enumRunConfig K nm tname))
        Intuitor.start [nm]).possibleTypes.length = 1 from rfl]; omega)
      (by rw [show (initState (tidy (enumRunConfig K nm tname))
        Intuitor.start [nm]).enums.length = 1 from rfl]; omega) hne0
    simp only [List.get] at hat
    have hstep := narrow_enum_step (tidy (enumRunConfig K nm tname)) v1
      (allPossibleTypes (tidy (enumRunConfig K nm tname))) [] htyE htok1 hlv1 haptbit
    have hposs1 : (handleRow (tidy (enumRunConfig K nm tname))
        (initState (tidy (enumRunConfig K nm tname)) Intuitor.start [nm])
        [v1]).possibleTypes.getD 0 0 =
        (narrow (tidy (enumRunConfig K nm tname)) v1
          (allPossibleTypes (tidy (enumRunConfig K nm tname))) []).possibles := by
      rw [(handleRow_parts _ _ _).1, hat.1, hp0, he0]
    have henums1 : (handleRow (tidy (enumRunConfig K nm tname))
        (initState (tidy (enumRunConfig K nm tname)) Intuitor.start [nm])
        [v1]).enums.getD 0 [] = insertDistinct [] v1 := by
      rw [(handleRow_parts _ _ _).2.1, hat.2, hp0, he0]
      exact hstep.1
    have hbit1 : ((handleRow (tidy (enumRunConfig K nm tname))
        (initState (tidy (enumRunConfig K nm tname)) Intuitor.start [nm])
        [v1]).possibleTypes.getD 0 0).testBit 13 = true := by
      rw [hposs1, hstep.2]
      have h1le : ((insertDistinct [] v1).length : Int) ≤
          (tidy (enumRunConfig K nm tname)).enumCount := by
        rw [hecE]
        simp only [insertDistinct]
        simp
        exact_mod_cast hK
      simp [h1le]
    have hacc1 : (insertDistinct [] v1).length ≤ K := by
      simp only [insertDistinct]
      simp
      omega
    have hfieldsHR := handleRow_fields (tidy (enumRunConfig K nm tname))
      (initState (tidy (enumRunConfig K nm tname)) Intuitor.start [nm]) [v1]
    have h1HR : (handleRow (tidy (enumRunConfig K nm tname))
        (initState (tidy (enumRunConfig K nm tname)) Intuitor.start [nm])
        [v1]).columnNames.length = 1 := by
      rw [hfieldsHR.1]
      rfl
    have hpHR : 0 < (handleRow (tidy (enumRunConfig K nm tname))
        (initState (tidy (enumRunConfig K nm tname)) Intuitor.start [nm])
        [v1]).possibleTypes.length := by
      rw [hfieldsHR.2.2.2.2.1]
      rw [show (initState (tidy (enumRunConfig K nm tname))
        Intuitor.start [nm]).possibleTypes.length = 1 from rfl]
      omega
    have heHR : 0 < (handleRow (tidy (enumRunConfig K nm tname))
        (initState (tidy (enumRunConfig K nm tname)) Intuitor.start [nm])
        [v1]).enums.length := by
      rw [hfieldsHR.2.2.2.2.2.1]
      rw [show (initState (tidy (enumRunConfig K nm tname))
        Intuitor.start [nm]).enums.length = 1 from rfl]
      omega
    have htrack := intuitLoop_enum_track (tidy (enumRunConfig K nm tname)) K
      htyE hnnE hsE hecE vr
      (handleRow (tidy (enumRunConfig K nm tname))
        (initState (tidy (enumRunConfig K nm tname)) Intuitor.start [nm]) [v1])
      (insertDistinct [] v1) hvsr h1HR hpHR heHR hbit1 henums1 hacc1
    have hallHR : ∀ x ∈ vr.map (fun v => (Except.ok [v] : ReadResult)),
        ∃ row2, x = Except.ok row2 ∧
        row2.length = (handleRow (tidy (enumRunConfig K nm tname))
          (initState (tidy (enumRunConfig K nm tname)) Intuitor.start
            [nm]) [v1]).columnNames.length := by
      intro x hm2
      rcases List.mem_map.mp hm2 with ⟨v2, hm2b, hx⟩
      refine ⟨[v2], hx.symm, ?_⟩
      rw [h1HR]
      rfl
    have hloopnone : (intuitLoop (tidy (enumRunConfig K nm tname))
        (handleRow (tidy (enumRunConfig K nm tname))
          (initState (tidy (enumRunConfig K nm tname)) Intuitor.start [nm]) [v1])
        (vr.map fun v => Except.ok [v])).2 = none :=
      intuitLoop_complete _ _ _ hsE hallHR
    have hnone : (intuitBody (tidy (enumRunConfig K nm tname)) kw Intuitor.start
        (Except.ok [v1] :: vr.map fun v => Except.ok [v])).2 = none := by
      rw [intuitBody, if_neg hlenne, hbn]
      cases hp : intuitLoop (tidy (enumRunConfig K nm tname))
          (handleRow (tidy (enumRunConfig K nm tname))
            (initState (tidy (enumRunConfig K nm tname)) Intuitor.start [nm]) [v1])
          (vr.map fun v => Except.ok [v]) with
      | mk st5 e? =>
        rw [hp] at hloopnone
        cases e? with
        | some e => exact absurd hloopnone (by simp)
        | none => rfl
    rcases intuitBody_none (tidy (enumRunConfig K nm tname)) kw Intuitor.start
      (Except.ok [v1] :: vr.map fun v => Except.ok [v]) hnone with
      ⟨fr2, rest2, heq, hlen2, hloop2, hres2⟩
    injection heq with h1 h2
    injection h1 with h1b
    subst h1b
    subst h2
    rw [hbn] at hres2
    have hfieldsT := intuitLoop_fields (tidy (enumRunConfig K nm tname))
      (handleRow (tidy (enumRunConfig K nm tname))
        (initState (tidy (enumRunConfig K nm tname)) Intuitor.start [nm]) [v1])
      (vr.map fun v => Except.ok [v])
    have hTnames : (intuitLoop (tidy (enumRunConfig K nm tname))
        (handleRow (tidy (enumRunConfig K nm tname))
          (initState (tidy (enumRunConfig K nm tname)) Intuitor.start [nm]) [v1])
        (vr.map fun v => Except.ok [v])).1.columnNames = [nm] := by
      rw [hfieldsT.1, hfieldsHR.1]
      rfl
    have hfold : distinctVals (v1 :: vr) = vr.foldl insertDistinct (insertDistinct [] v1) := by
      rw [show distinctVals (v1 :: vr) = (v1 :: vr).foldl insertDistinct [] from rfl]
      rw [List.foldl_cons]
    rw [hres2] at hhi
    rw [show (finish (tidy (enumRunConfig K nm tname)) kw
        (intuitLoop (tidy (enumRunConfig K nm tname))
          (handleRow (tidy (enumRunConfig K nm tname))
            (initState (tidy (enumRunConfig K nm tname)) Intuitor.start [nm]) [v1])
          (vr.map fun v => Except.ok [v])).1).possibleTypes =
        (intuitLoop (tidy (enumRunConfig K nm tname))
          (handleRow (tidy (enumRunConfig K nm tname))
            (initState (tidy (enumRunConfig K nm tname)) Intuitor.start [nm]) [v1])
          (vr.map fun v => Except.ok [v])).1.possibleTypes from rfl] at hhi
    refine ⟨hnone, ?_, ?_⟩
    · intro hble
      rw [hfold] at hble
      obtain ⟨hbitT, henumsT⟩ := htrack.1 hble
      refine ⟨?_, ?_, ?_⟩
      · rw [hres2, (finish_fields _ kw _).2.1]
        exact hbitT
      · rw [hres2, (finish_fields _ kw _).2.2.1, henumsT, hfold]
      · rw [hres2]
        rw [finish_columnTypes _ kw _ 0 (by rw [hTnames]; simp)]
        rw [htyE]
        rw [resolve_default_enum _ hhi hbitT]
        rw [if_pos rfl]
        rw [hTnames]
        rfl
    · intro hgt
      rw [hfold] at hgt
      have hbitF := htrack.2 hgt
      have hresne : resolveOne defaultTypes
          ((intuitLoop (tidy (enumRunConfig K nm tname))
            (handleRow (tidy (enumRunConfig K nm tname))
              (initState (tidy (enumRunConfig K nm tname)) Intuitor.start [nm]) [v1])
            (vr.map fun v => Except.ok [v])).1.possibleTypes.getD 0 0) ≠ "enum" := by
        have hnames13 : ∀ i : Fin defaultTypes.length, (i : Nat) ≠ 13 →
            (defaultTypes.get i).name ≠ "enum" := by decide
        refine resolveAux_ne defaultTypes 0 _ "enum" (by decide) ?_
        intro k hk hname
        by_cases hk13 : k = 13
        · subst hk13
          simpa using hbitF
        · exact absurd hname (hnames13 ⟨k, hk⟩ hk13)
      refine ⟨?_, ?_, ?_⟩
      · rw [hres2, (finish_fields _ kw _).2.1]
        exact hbitF
      · rw [hres2, (finish_fields _ kw _).2.1]
        exact hresne
      · rw [hres2, (finish_fields _ kw _).2.1]
        rw [finish_columnTypes _ kw _ 0 (by rw [hTnames]; simp)]
        rw [htyE]
        rw [if_neg hresne]

/-- Witness for C3 (amended): cutoff K = 2 over the values `aa`, `ab`,
`aa` (two distinct valid tokens, which also eliminate every
higher-priority type), with the rejection characterization taken at the
default limits over an empty tracker. -/
theorem c3_enum_cutoff_witness :
    ((1 ≤ 2) ∧ (∀ v ∈ ["aa", "ab", "aa"], isEnumToken v = true ∧ v.utf8ByteSize ≤ 10) ∧
      (["aa", "ab", "aa"] : List String) ≠ [] ∧
      (∀ k, k < 13 →
        ((Intuit (enumRunConfig 2 "c" "tbl") (fun _ => false)
          (["aa", "ab", "aa"].map fun v => Except.ok [v])).1.possibleTypes.getD
            0 0).testBit k = false)) ∧
    (((enumHandle 10 2 "aa" []).1 = false ↔
      ("aa".utf8ByteSize = 0 ∨ ("aa".utf8ByteSize : Int) > 10 ∨
        isEnumToken "aa" = false ∨
        ("aa" ∉ ([] : List String) ∧
          ¬(((insertDistinct [] "aa").length : Int) ≤ 2)))) ∧
     (Intuit (enumRunConfig 2 "c" "tbl") (fun _ => false)
       (["aa", "ab", "aa"].map fun v => Except.ok [v])).2 = none ∧
     ((distinctVals ["aa", "ab", "aa"]).length ≤ 2 →
       ((Intuit (enumRunConfig 2 "c" "tbl") (fun _ => false)
         (["aa", "ab", "aa"].map fun v => Except.ok [v])).1.possibleTypes.getD
           0 0).testBit 13 = true ∧
       (Intuit (enumRunConfig 2 "c" "tbl") (fun _ => false)
         (["aa", "ab", "aa"].map fun v => Except.ok [v])).1.enums.getD 0 []
           = distinctVals ["aa", "ab", "aa"] ∧
       (Intuit (enumRunConfig 2 "c" "tbl") (fun _ => false)
         (["aa", "ab", "aa"].map fun v => Except.ok [v])).1.columnTypes.getD 0 ""
           = "c" ++ "_enum") ∧
     (2 < (distinctVals ["aa", "ab", "aa"]).length →
       ((Intuit (enumRunConfig 2 "c" "tbl") (fun _ => false)
         (["aa", "ab", "aa"].map fun v => Except.ok [v])).1.possibleTypes.getD
           0 0).testBit 13 = false ∧
       resolveOne defaultTypes ((Intuit (enumRunConfig 2 "c" "tbl") (fun _ => false)
         (["aa", "ab", "aa"].map fun v => Except.ok [v])).1.possibleTypes.getD 0 0)
           ≠ "enum" ∧
       (Intuit (enumRunConfig 2 "c" "tbl") (fun _ => false)
         (["aa", "ab", "aa"].map fun v => Except.ok [v])).1.columnTypes.getD 0 "" =
         resolveOne defaultTypes ((Intuit (enumRunConfig 2 "c" "tbl") (fun _ => false)
           (["aa", "ab", "aa"].map fun v => Except.ok [v])).1.possibleTypes.getD 0 0))) :=
  ⟨⟨by decide, by decide, by decide, by decide⟩,
   c3_enum_cutoff 2 "c" "tbl" (fun _ => false) ["aa", "ab", "aa"] 10 2 "aa" []
     (by decide) (by decide) (by decide) (by decide)⟩

end Csvpg
